import Mathlib

/-!
Shallow embedding of the chunk/sequence index construction of
`Source/Readers/ReaderLib/Indexer.h`: the structs `SequenceDescriptor`,
`ChunkDescriptor` and `Index`, with `Index::AddSequence` and `Index::Reserve`.

Machine integers are modelled as `Nat`.  Narrowing casts to `uint32_t`
(`ChunkIdType` is also a 32-bit unsigned type) are modelled by an explicit
reduction modulo `2 ^ 32`; the `size_t` subtractions (lines 92 and 130) and
the `size_t` byte-size additions (lines 98 and 117) performed by
`AddSequence` are modelled with their wraparound modulo `2 ^ 64`.
`RuntimeError` throws an exception in the source while leaving the index
object in its partially mutated state, so every operation here returns the
resulting state together with an optional error value.

Note on lines 100-107 of the source: `const auto& previousChunk = chunk;`
deduces `auto` as the pointer type `ChunkDescriptor*`, making
`previousChunk` a reference to the pointer variable `chunk` itself; after
line 105 repoints `chunk` at the freshly pushed chunk, line 107 reads the
new chunk's own default-constructed fields, so every newly opened chunk
gets `m_offset = 0` (see `freshChunk`).
-/

namespace Indexer

/-- Reduction modulo `2 ^ 32`: models `static_cast<uint32_t>` applied to a
`size_t` value (and the cast to the 32-bit `ChunkIdType`). -/
def trunc32 (n : Nat) : Nat := n % 2 ^ 32

/-- Unsigned 64-bit subtraction: models `a - b` on `size_t` operands, which
wraps around modulo `2 ^ 64`.  Faithful for `a < 2 ^ 64`, the range of
`size_t`. -/
def usub (a b : Nat) : Nat := (a + 2 ^ 64 - b % 2 ^ 64) % 2 ^ 64

/-- Reduction modulo `2 ^ 64`: models the wraparound of `size_t` addition
(the sums at lines 98 and 117 of `Indexer.h`). -/
def wrap64 (n : Nat) : Nat := n % 2 ^ 64

/-- Modelled from the spec: `KeyType` is declared in `DataDeserializer.h`,
which is not among the sources.  The spec describes a sequence key with two
components, a sample-group (sequence) identifier and a sub-sequence (sample)
identifier; `AddSequence` only reads the `m_sequence` component. -/
structure KeyType where
  m_sequence : Nat
  m_sample : Nat
deriving DecidableEq

/-- Sequence metadata (`struct SequenceDescriptor`).  `m_numberOfSamples`,
`m_chunkOffsetBytes` and `m_byteSize` are `uint32_t` fields. -/
structure SequenceDescriptor where
  m_key : KeyType
  m_numberOfSamples : Nat
  m_chunkOffsetBytes : Nat
  m_byteSize : Nat
deriving DecidableEq

/-- Chunk metadata (`struct ChunkDescriptor`).  The fields `m_id` (of the
32-bit `ChunkIdType`), `m_numberOfSequences` and `m_numberOfSamples` come
from the base `struct ChunkDescription`, declared in `DataDeserializer.h`
(not among the sources) and modelled from the spec as the chunk id and the
running sequence/sample totals; Lean structures have no inheritance, so the
base fields are flattened into this structure. -/
structure ChunkDescriptor where
  m_id : Nat
  m_numberOfSequences : Nat
  m_numberOfSamples : Nat
  m_sequences : List SequenceDescriptor
  m_offset : Nat
  m_byteSize : Nat
  m_firstSamples : List Nat
deriving DecidableEq

/-- The default-constructed chunk (`ChunkDescriptor()`): zero counters and
offsets, empty collections. -/
def emptyChunk : ChunkDescriptor :=
  { m_id := 0, m_numberOfSequences := 0, m_numberOfSamples := 0, m_sequences := [],
    m_offset := 0, m_byteSize := 0, m_firstSamples := [] }

/-- Modelled from the spec: `CHUNKID_MAX` is declared in
`DataDeserializer.h`, which is not among the sources.  The spec describes
chunk ids as "a fixed small-integer type" whose maximum value bounds the
chunk count; `ChunkIdType` is a 32-bit unsigned type and `CHUNKID_MAX` its
largest value. -/
def CHUNKID_MAX : Nat := 2 ^ 32 - 1

/-- The fatal errors (`RuntimeError` calls) that `AddSequence` can raise,
plus a marker for the `assert(!m_chunks.empty())` precondition. -/
inductive IndexError where
  | sequenceByteSizeOverflow
  | emptyIndexAssertion
  | maxChunkCountExceeded
  | sequenceCountOverflow
  | chunkOffsetOverflow
deriving DecidableEq

/-- The index (`struct Index`): chunk list, key-to-location map, maximum
chunk size and the two role flags.  `std::map<size_t, std::pair<uint32_t,
uint32_t>>` is modelled as an association list whose `insert` does not
overwrite an existing key, matching `std::map::insert`. -/
structure Index where
  m_chunks : List ChunkDescriptor
  m_keyToSequenceInChunk : List (Nat × Nat × Nat)
  m_maxChunkSize : Nat
  m_primary : Bool
  m_trackFirstSamples : Bool
deriving DecidableEq

/-- The `Index(chunkSize, primary, trackFirstSamples)` constructor. -/
def Index.create (chunkSize : Nat) (primary : Bool) (trackFirstSamples : Bool) : Index :=
  { m_chunks := [], m_keyToSequenceInChunk := [], m_maxChunkSize := chunkSize,
    m_primary := primary, m_trackFirstSamples := trackFirstSamples }

/-- Lookup in the key-to-location map (`std::map::find`). -/
def lookupKey (map : List (Nat × Nat × Nat)) (k : Nat) : Option (Nat × Nat) :=
  match map with
  | [] => none
  | e :: rest => if e.1 = k then some e.2 else lookupKey rest k

/-- Insertion into the key-to-location map (`std::map::insert`): the map is
left unchanged when the key is already present. -/
def insertKey (map : List (Nat × Nat × Nat)) (k : Nat) (v : Nat × Nat) :
    List (Nat × Nat × Nat) :=
  match map with
  | [] => [(k, v)]
  | e :: rest => if e.1 = k then e :: rest else e :: insertKey rest k v

/-- The chunk created by `m_chunks.push_back({})` followed by the `m_id` and
`m_offset` assignments (lines 104-107); `newCount` is the chunk count after
the push.  Line 100, `const auto& previousChunk = chunk;`, deduces `auto` as
the pointer type `ChunkDescriptor*`, so `previousChunk` is a reference *to
the pointer variable* `chunk`; line 105 repoints `chunk` at the freshly
pushed chunk, so line 107, `chunk->m_offset = previousChunk->m_offset +
previousChunk->m_byteSize;`, reads the new chunk's own default-constructed
fields and sets its offset to `0 + 0 = 0`, not to the sealed chunk's
`m_offset + m_byteSize`. -/
def freshChunk (newCount : Nat) : ChunkDescriptor :=
  { emptyChunk with m_id := trunc32 (newCount - 1),
                    m_offset := emptyChunk.m_offset + emptyChunk.m_byteSize }

/-- Lines 114-119 of `AddSequence`: the optional `m_firstSamples` push (which
records the pre-update sample total) followed by the updates of the running
byte size (a `size_t` addition at line 117, wrapping modulo `2 ^ 64`) and
the sequence/sample counters. -/
def bumpChunk (track : Bool) (c : ChunkDescriptor) (sd : SequenceDescriptor) :
    ChunkDescriptor :=
  let c1 := if track then
      { c with m_firstSamples := c.m_firstSamples ++ [c.m_numberOfSamples] }
    else c
  { c1 with m_byteSize := wrap64 (c1.m_byteSize + sd.m_byteSize),
            m_numberOfSequences := c1.m_numberOfSequences + 1,
            m_numberOfSamples := c1.m_numberOfSamples + sd.m_numberOfSamples }

/-- `chunk->m_sequences.push_back(sd)` with the chunk-relative offset field
set to `off`. -/
def appendSeq (c : ChunkDescriptor) (sd : SequenceDescriptor) (off : Nat) :
    ChunkDescriptor :=
  { c with m_sequences := c.m_sequences ++ [{ sd with m_chunkOffsetBytes := off }] }

/-- Lines 130-133 of `AddSequence`: compute the chunk-relative offset of the
sequence, fail if the `uint32_t` cast loses information, otherwise append
the finished descriptor.  `front` holds every chunk before the current one. -/
def finishAdd (m : Index) (front : List ChunkDescriptor) (chunk : ChunkDescriptor)
    (kmap : List (Nat × Nat × Nat)) (sd : SequenceDescriptor)
    (startOffsetInFile : Nat) : Index × Option IndexError :=
  let off := usub startOffsetInFile chunk.m_offset
  if trunc32 off ≠ off then
    ({ m with m_chunks := front ++ [chunk], m_keyToSequenceInChunk := kmap },
      some IndexError.chunkOffsetOverflow)
  else
    ({ m with m_chunks := front ++ [appendSeq chunk sd (trunc32 off)],
              m_keyToSequenceInChunk := kmap },
      none)

/-- Lines 114-133 of `AddSequence`, after the chunk-boundary decision:
update the current chunk's totals, record the key location for a
non-primary index (failing if the position does not fit in `uint32_t`),
then compute the chunk-relative offset and append the descriptor. -/
def afterBoundary (m : Index) (front : List ChunkDescriptor) (c0 : ChunkDescriptor)
    (sd : SequenceDescriptor) (startOffsetInFile : Nat) : Index × Option IndexError :=
  let chunk := bumpChunk m.m_trackFirstSamples c0 sd
  if m.m_primary then
    finishAdd m front chunk m.m_keyToSequenceInChunk sd startOffsetInFile
  else
    let pos := chunk.m_sequences.length
    if trunc32 pos ≠ pos then
      ({ m with m_chunks := front ++ [chunk] }, some IndexError.sequenceCountOverflow)
    else
      finishAdd m front chunk
        (insertKey m.m_keyToSequenceInChunk sd.m_key.m_sequence (chunk.m_id, trunc32 pos))
        sd startOffsetInFile

/-- `Index::AddSequence(SequenceDescriptor&& sd, size_t startOffsetInFile,
size_t endOffsetInFile)`.  The returned `Index` is the state of the object
when the call returns or when the `RuntimeError` is thrown.  The seal test
at line 98 adds `chunk->m_byteSize` (a `size_t`) and `sd.m_byteSize` (a
`uint32_t` promoted to `size_t`), wrapping modulo `2 ^ 64`; the chunk
freshly opened on sealing sits at offset 0 (see `freshChunk`). -/
def Index.AddSequence (m : Index) (sd0 : SequenceDescriptor)
    (startOffsetInFile endOffsetInFile : Nat) : Index × Option IndexError :=
  let d := usub endOffsetInFile startOffsetInFile
  let sd := { sd0 with m_byteSize := trunc32 d }
  if trunc32 d ≠ d then (m, some IndexError.sequenceByteSizeOverflow)
  else
    match m.m_chunks.getLast? with
    | none => (m, some IndexError.emptyIndexAssertion)
    | some back =>
      if 0 < back.m_byteSize ∧
          m.m_maxChunkSize < wrap64 (back.m_byteSize + sd.m_byteSize) then
        let chunks2 := m.m_chunks ++ [freshChunk (m.m_chunks.length + 1)]
        if CHUNKID_MAX < chunks2.length then
          ({ m with m_chunks := chunks2 }, some IndexError.maxChunkCountExceeded)
        else
          afterBoundary m m.m_chunks (freshChunk (m.m_chunks.length + 1))
            sd startOffsetInFile
      else
        afterBoundary m m.m_chunks.dropLast back sd startOffsetInFile

/-- `Index::Reserve(size_t sizeInBytes)`: the capacity reservation has no
observable effect on the contents; the call then seeds one empty chunk. -/
def Index.Reserve (m : Index) (sizeInBytes : Nat) : Index :=
  { m with m_chunks := m.m_chunks ++ [emptyChunk] }

/-- `Index::IsEmpty()`. -/
def Index.IsEmpty (m : Index) : Bool := m.m_chunks.isEmpty

/-- Runs a sequence of `AddSequence` calls, stopping at the first error, as
the exception thrown by `RuntimeError` would. -/
def runAdds (m : Index) (reqs : List (SequenceDescriptor × Nat × Nat)) :
    Index × Option IndexError :=
  match reqs with
  | [] => (m, none)
  | r :: rest =>
    match m.AddSequence r.1 r.2.1 r.2.2 with
    | (m2, none) => runAdds m2 rest
    | (m2, some e) => (m2, some e)

/-- Sum of the `m_byteSize` fields of a list of sequence descriptors. -/
def sumBytes (l : List SequenceDescriptor) : Nat :=
  (l.map fun sd => sd.m_byteSize).sum

/-- Sum of the `m_numberOfSamples` fields of a list of sequence
descriptors. -/
def sumSamples (l : List SequenceDescriptor) : Nat :=
  (l.map fun sd => sd.m_numberOfSamples).sum

/-- The first-samples table of a chunk is a correct table of partial sample
sums over its sequences. -/
def firstSamplesOk (c : ChunkDescriptor) : Prop :=
  c.m_firstSamples.length = c.m_sequences.length ∧
    ∀ i, i < c.m_firstSamples.length →
      c.m_firstSamples[i]? = some (sumSamples (c.m_sequences.take i))

/-- Every key-map entry resolves, via its chunk id and position, to a stored
sequence descriptor carrying the looked-up key. -/
def KeyMapValid (m : Index) : Prop :=
  ∀ k cid pos, lookupKey m.m_keyToSequenceInChunk k = some (cid, pos) →
    ∃ c sd, m.m_chunks[cid]? = some c ∧ c.m_sequences[pos]? = some sd ∧
      sd.m_key.m_sequence = k

/-- The structural invariant of an index under construction. -/
structure GoodIndex (m : Index) : Prop where
  ne : m.m_chunks ≠ []
  ids : ∀ (i : Nat) (c : ChunkDescriptor), m.m_chunks[i]? = some c → c.m_id = i
  count : m.m_chunks.length ≤ CHUNKID_MAX
  sums : ∀ c ∈ m.m_chunks,
    c.m_byteSize = wrap64 (sumBytes c.m_sequences) ∧
    c.m_numberOfSequences = c.m_sequences.length ∧
    c.m_numberOfSamples = sumSamples c.m_sequences
  firsts : m.m_trackFirstSamples = true → ∀ c ∈ m.m_chunks, firstSamplesOk c
  keymap : KeyMapValid m
  primaryEmpty : m.m_primary = true → m.m_keyToSequenceInChunk = []

/-- Invariant for the chunk-size bound: every record so far had nonzero
size; every chunk's byte size stays within the cap unless the chunk holds
exactly one sequence, whose byte size (below `2 ^ 32`, as a `uint32_t`
value) it equals; and, whenever the cap itself is below `2 ^ 32`, a chunk
of byte size 0 holds no sequences. -/
structure SizeInv (m : Index) : Prop where
  seqPos : ∀ c ∈ m.m_chunks, ∀ sd ∈ c.m_sequences, 0 < sd.m_byteSize
  bound : ∀ c ∈ m.m_chunks,
    c.m_byteSize ≤ m.m_maxChunkSize ∨
      ((∃ sd, c.m_sequences = [sd] ∧ c.m_byteSize = sd.m_byteSize) ∧
        c.m_byteSize < 2 ^ 32)
  zeroEmpty : m.m_maxChunkSize < 2 ^ 32 → ∀ c ∈ m.m_chunks,
    c.m_byteSize = 0 → c.m_sequences = []

/-- The chunk that receives the record of a call `AddSequence sd0 s e` when
the byte-size check passes and the last chunk is `back`: either a freshly
opened chunk at offset 0 (when `back` is nonempty and the wrapped sum of its
byte size and the record's would pass the maximum) or `back` itself. -/
def targetOf (m : Index) (back : ChunkDescriptor) (s e : Nat) : ChunkDescriptor :=
  if 0 < back.m_byteSize ∧ m.m_maxChunkSize < wrap64 (back.m_byteSize + usub e s) then
    freshChunk (m.m_chunks.length + 1)
  else back

/-- Key builder used by the concrete evaluation theorems. -/
def wkey (k : Nat) : KeyType := { m_sequence := k, m_sample := 0 }

/-- Freshly constructed sequence descriptor (as the indexer would build it)
with key `k` and `n` samples, used by the concrete evaluation theorems. -/
def wsd (k n : Nat) : SequenceDescriptor :=
  { m_key := wkey k, m_numberOfSamples := n, m_chunkOffsetBytes := 0, m_byteSize := 0 }

/-- A chunk holding `2 ^ 32` zero-byte sequences (the state reached by
`2 ^ 32` zero-byte `AddSequence` calls, which never seal the chunk), used to
exhibit the position-counter overflow error. -/
def bigChunk : ChunkDescriptor :=
  { m_id := 0, m_numberOfSequences := 2 ^ 32, m_numberOfSamples := 2 ^ 32,
    m_sequences := List.replicate (2 ^ 32) (wsd 0 1), m_offset := 0, m_byteSize := 0,
    m_firstSamples := [] }

/-- A secondary index whose single chunk is `bigChunk`. -/
def bigIndex : Index :=
  { m_chunks := [bigChunk], m_keyToSequenceInChunk := [], m_maxChunkSize := 10,
    m_primary := false, m_trackFirstSamples := false }

/-- A nonempty chunk, used to build an index that already holds the maximum
number of chunks. -/
def fullChunk : ChunkDescriptor :=
  { m_id := 0, m_numberOfSequences := 1, m_numberOfSamples := 1,
    m_sequences := [], m_offset := 0, m_byteSize := 6, m_firstSamples := [] }

/-- An index already holding `CHUNKID_MAX` chunks whose last chunk is
nonempty, used to exhibit the chunk-limit error. -/
def fullIndex : Index :=
  { m_chunks := List.replicate (2 ^ 32 - 2) fullChunk ++ [fullChunk],
    m_keyToSequenceInChunk := [], m_maxChunkSize := 0, m_primary := true,
    m_trackFirstSamples := false }

/-- Concrete request list used by the evaluation theorems: three contiguous
records of sizes 6, 6 and 3 with distinct keys. -/
def wreqsA : List (SequenceDescriptor × Nat × Nat) :=
  [(wsd 5 1, 0, 6), (wsd 7 1, 6, 12), (wsd 9 1, 12, 15)]

/-- A secondary, first-sample-tracking index seeded by `Reserve`. -/
def wseedA : Index := (Index.create 10 false true).Reserve 15

/-- The index built from `wseedA` by the `wreqsA` calls. -/
def wrunA : Index := (runAdds wseedA wreqsA).1

/-- Concrete request list with an oversized leading record. -/
def wreqsB : List (SequenceDescriptor × Nat × Nat) :=
  [(wsd 1 2, 0, 25), (wsd 2 1, 25, 26)]

/-- A primary index seeded by `Reserve`. -/
def wseedB : Index := (Index.create 10 true false).Reserve 0

/-- The index built from `wseedB` by the `wreqsB` calls. -/
def wrunB : Index := (runAdds wseedB wreqsB).1

/-- A secondary, first-sample-tracking index with a huge chunk-size cap. -/
def wseedC : Index := (Index.create (2 ^ 40) false true).Reserve 0

/-- The last chunk of `wrunA`. -/
def wbackA : ChunkDescriptor := (wrunA.m_chunks.getLast?).getD emptyChunk

/-- The state after a successful run admitting a zero-byte record followed
by a record larger than the whole chunk-size cap. -/
def cexC3 : Index :=
  (runAdds ((Index.create 1 true false).Reserve 0)
    [(wsd 1 1, 0, 0), (wsd 2 1, 0, 2)]).1

/-! Basic arithmetic lemmas about the modelled machine operations. -/

theorem trunc32_eq_self {n : Nat} (h : n < 2 ^ 32) : trunc32 n = n :=
  Nat.mod_eq_of_lt h

theorem wrap64_eq_self {n : Nat} (h : n < 2 ^ 64) : wrap64 n = n :=
  Nat.mod_eq_of_lt h

theorem wrap64_add_left (a b : Nat) : wrap64 (wrap64 a + b) = wrap64 (a + b) :=
  Nat.mod_add_mod a (2 ^ 64) b

theorem trunc32_eq_iff {n : Nat} : trunc32 n = n ↔ n < 2 ^ 32 := by
  constructor
  · intro h
    rw [← h]
    exact Nat.mod_lt _ (by norm_num)
  · exact trunc32_eq_self

theorem usub_of_le {a b : Nat} (hba : b ≤ a) (ha : a < 2 ^ 64) : usub a b = a - b := by
  unfold usub
  rw [Nat.mod_eq_of_lt (lt_of_le_of_lt hba ha)]
  have h1 : a + 2 ^ 64 - b = (a - b) + 2 ^ 64 := by omega
  rw [h1, Nat.add_mod_right, Nat.mod_eq_of_lt (by omega)]

theorem sd_update_m_byteSize (sd : SequenceDescriptor) (b : Nat) :
    ({ sd with m_byteSize := b }).m_byteSize = b := rfl

/-! Projection lemmas for the chunk-updating helpers. -/

@[simp] theorem bumpChunk_m_sequences (track : Bool) (c : ChunkDescriptor)
    (sd : SequenceDescriptor) : (bumpChunk track c sd).m_sequences = c.m_sequences := by
  unfold bumpChunk
  split <;> rfl

@[simp] theorem bumpChunk_m_id (track : Bool) (c : ChunkDescriptor)
    (sd : SequenceDescriptor) : (bumpChunk track c sd).m_id = c.m_id := by
  unfold bumpChunk
  split <;> rfl

@[simp] theorem bumpChunk_m_offset (track : Bool) (c : ChunkDescriptor)
    (sd : SequenceDescriptor) : (bumpChunk track c sd).m_offset = c.m_offset := by
  unfold bumpChunk
  split <;> rfl

@[simp] theorem bumpChunk_m_byteSize (track : Bool) (c : ChunkDescriptor)
    (sd : SequenceDescriptor) :
    (bumpChunk track c sd).m_byteSize = wrap64 (c.m_byteSize + sd.m_byteSize) := by
  unfold bumpChunk
  split <;> rfl

@[simp] theorem bumpChunk_m_numberOfSequences (track : Bool) (c : ChunkDescriptor)
    (sd : SequenceDescriptor) :
    (bumpChunk track c sd).m_numberOfSequences = c.m_numberOfSequences + 1 := by
  unfold bumpChunk
  split <;> rfl

@[simp] theorem bumpChunk_m_numberOfSamples (track : Bool) (c : ChunkDescriptor)
    (sd : SequenceDescriptor) :
    (bumpChunk track c sd).m_numberOfSamples = c.m_numberOfSamples + sd.m_numberOfSamples := by
  unfold bumpChunk
  split <;> rfl

theorem bumpChunk_m_firstSamples_of_track (c : ChunkDescriptor)
    (sd : SequenceDescriptor) :
    (bumpChunk true c sd).m_firstSamples = c.m_firstSamples ++ [c.m_numberOfSamples] := rfl

theorem bumpChunk_m_firstSamples_of_not_track (c : ChunkDescriptor)
    (sd : SequenceDescriptor) :
    (bumpChunk false c sd).m_firstSamples = c.m_firstSamples := rfl

@[simp] theorem appendSeq_m_sequences (c : ChunkDescriptor) (sd : SequenceDescriptor)
    (off : Nat) :
    (appendSeq c sd off).m_sequences =
      c.m_sequences ++ [{ sd with m_chunkOffsetBytes := off }] := rfl

@[simp] theorem appendSeq_m_id (c : ChunkDescriptor) (sd : SequenceDescriptor)
    (off : Nat) : (appendSeq c sd off).m_id = c.m_id := rfl

@[simp] theorem appendSeq_m_offset (c : ChunkDescriptor) (sd : SequenceDescriptor)
    (off : Nat) : (appendSeq c sd off).m_offset = c.m_offset := rfl

@[simp] theorem appendSeq_m_byteSize (c : ChunkDescriptor) (sd : SequenceDescriptor)
    (off : Nat) : (appendSeq c sd off).m_byteSize = c.m_byteSize := rfl

@[simp] theorem appendSeq_m_numberOfSequences (c : ChunkDescriptor)
    (sd : SequenceDescriptor) (off : Nat) :
    (appendSeq c sd off).m_numberOfSequences = c.m_numberOfSequences := rfl

@[simp] theorem appendSeq_m_numberOfSamples (c : ChunkDescriptor)
    (sd : SequenceDescriptor) (off : Nat) :
    (appendSeq c sd off).m_numberOfSamples = c.m_numberOfSamples := rfl

@[simp] theorem appendSeq_m_firstSamples (c : ChunkDescriptor)
    (sd : SequenceDescriptor) (off : Nat) :
    (appendSeq c sd off).m_firstSamples = c.m_firstSamples := rfl

@[simp] theorem freshChunk_m_id (n : Nat) :
    (freshChunk n).m_id = trunc32 (n - 1) := rfl

@[simp] theorem freshChunk_m_offset (n : Nat) :
    (freshChunk n).m_offset = 0 := rfl

@[simp] theorem freshChunk_m_byteSize (n : Nat) :
    (freshChunk n).m_byteSize = 0 := rfl

@[simp] theorem freshChunk_m_sequences (n : Nat) :
    (freshChunk n).m_sequences = [] := rfl

@[simp] theorem freshChunk_m_numberOfSequences (n : Nat) :
    (freshChunk n).m_numberOfSequences = 0 := rfl

@[simp] theorem freshChunk_m_numberOfSamples (n : Nat) :
    (freshChunk n).m_numberOfSamples = 0 := rfl

@[simp] theorem freshChunk_m_firstSamples (n : Nat) :
    (freshChunk n).m_firstSamples = [] := rfl

/-! Lemmas about the key-to-location association list. -/

theorem lookupKey_insertKey_self (map : List (Nat × Nat × Nat)) (k : Nat) (v : Nat × Nat) :
    lookupKey (insertKey map k v) k = some ((lookupKey map k).getD v) := by
  induction map with
  | nil => simp [insertKey, lookupKey]
  | cons e rest ih =>
    by_cases hk : e.1 = k
    · simp [insertKey, lookupKey, hk]
    · simp [insertKey, lookupKey, hk, ih]

theorem lookupKey_insertKey_mono {map : List (Nat × Nat × Nat)} {k : Nat} {w : Nat × Nat}
    (h : lookupKey map k = some w) (k2 : Nat) (v2 : Nat × Nat) :
    lookupKey (insertKey map k2 v2) k = some w := by
  induction map with
  | nil => simp [lookupKey] at h
  | cons e rest ih =>
    simp only [insertKey]
    by_cases hk2 : e.1 = k2
    · rw [if_pos hk2]
      exact h
    · rw [if_neg hk2]
      simp only [lookupKey] at h ⊢
      by_cases hk : e.1 = k
      · simp only [if_pos hk] at h ⊢
        exact h
      · simp only [if_neg hk] at h ⊢
        exact ih h

theorem lookupKey_insertKey_of_ne {map : List (Nat × Nat × Nat)} {k k2 : Nat}
    (hne : k2 ≠ k) (v2 : Nat × Nat) :
    lookupKey (insertKey map k2 v2) k = lookupKey map k := by
  induction map with
  | nil => simp [insertKey, lookupKey, hne]
  | cons e rest ih =>
    simp only [insertKey]
    by_cases hk2 : e.1 = k2
    · rw [if_pos hk2]
    · rw [if_neg hk2]
      simp only [lookupKey]
      by_cases hk : e.1 = k
      · simp [hk]
      · simp [hk, ih]

/-! Elimination lemmas describing the states produced by `AddSequence`. -/

theorem finishAdd_none_elim {m : Index} {front : List ChunkDescriptor}
    {chunk : ChunkDescriptor} {kmap : List (Nat × Nat × Nat)} {sd : SequenceDescriptor}
    {s : Nat} {m' : Index} (h : finishAdd m front chunk kmap sd s = (m', none)) :
    trunc32 (usub s chunk.m_offset) = usub s chunk.m_offset ∧
    m' = { m with m_chunks := front ++ [appendSeq chunk sd (usub s chunk.m_offset)],
                  m_keyToSequenceInChunk := kmap } := by
  simp only [finishAdd] at h
  split at h
  · exact absurd (congrArg Prod.snd h) (by simp)
  · rename_i hoff
    rw [not_ne_iff] at hoff
    rw [hoff] at h
    exact ⟨hoff, (congrArg Prod.fst h).symm⟩

theorem afterBoundary_none_elim {m : Index} {front : List ChunkDescriptor}
    {c0 : ChunkDescriptor} {sd : SequenceDescriptor} {s : Nat} {m' : Index}
    (h : afterBoundary m front c0 sd s = (m', none)) :
    trunc32 (usub s c0.m_offset) = usub s c0.m_offset ∧
    m'.m_chunks = front ++
      [appendSeq (bumpChunk m.m_trackFirstSamples c0 sd) sd (usub s c0.m_offset)] ∧
    ((m.m_primary = true ∧ m'.m_keyToSequenceInChunk = m.m_keyToSequenceInChunk) ∨
      (m.m_primary = false ∧ trunc32 c0.m_sequences.length = c0.m_sequences.length ∧
        m'.m_keyToSequenceInChunk =
          insertKey m.m_keyToSequenceInChunk sd.m_key.m_sequence
            (c0.m_id, c0.m_sequences.length))) ∧
    m'.m_maxChunkSize = m.m_maxChunkSize ∧ m'.m_primary = m.m_primary ∧
    m'.m_trackFirstSamples = m.m_trackFirstSamples := by
  simp only [afterBoundary] at h
  split at h
  · rename_i hp
    obtain ⟨hoff, rfl⟩ := finishAdd_none_elim h
    rw [bumpChunk_m_offset] at hoff
    exact ⟨hoff, by rw [bumpChunk_m_offset], Or.inl ⟨hp, rfl⟩, rfl, rfl, rfl⟩
  · rename_i hp
    rw [Bool.not_eq_true] at hp
    split at h
    · exact absurd (congrArg Prod.snd h) (by simp)
    · rename_i hpos
      rw [not_ne_iff] at hpos
      rw [bumpChunk_m_sequences] at hpos
      obtain ⟨hoff, rfl⟩ := finishAdd_none_elim h
      rw [bumpChunk_m_offset] at hoff
      refine ⟨hoff, by rw [bumpChunk_m_offset], Or.inr ⟨hp, hpos, ?_⟩, rfl, rfl, rfl⟩
      rw [bumpChunk_m_sequences, bumpChunk_m_id, hpos]

theorem AddSequence_none_elim {m : Index} {sd0 : SequenceDescriptor} {s e : Nat}
    {m' : Index} (h : m.AddSequence sd0 s e = (m', none)) :
    ∃ back front target,
      m.m_chunks.getLast? = some back ∧
      trunc32 (usub e s) = usub e s ∧
      ((¬(0 < back.m_byteSize ∧
            m.m_maxChunkSize < wrap64 (back.m_byteSize + usub e s)) ∧
          front = m.m_chunks.dropLast ∧ target = back) ∨
        ((0 < back.m_byteSize ∧
            m.m_maxChunkSize < wrap64 (back.m_byteSize + usub e s)) ∧
          front = m.m_chunks ∧ target = freshChunk (m.m_chunks.length + 1) ∧
          m.m_chunks.length + 1 ≤ CHUNKID_MAX)) ∧
      trunc32 (usub s target.m_offset) = usub s target.m_offset ∧
      m'.m_chunks = front ++
        [appendSeq (bumpChunk m.m_trackFirstSamples target { sd0 with m_byteSize := usub e s })
          { sd0 with m_byteSize := usub e s } (usub s target.m_offset)] ∧
      ((m.m_primary = true ∧ m'.m_keyToSequenceInChunk = m.m_keyToSequenceInChunk) ∨
        (m.m_primary = false ∧
          trunc32 target.m_sequences.length = target.m_sequences.length ∧
          m'.m_keyToSequenceInChunk =
            insertKey m.m_keyToSequenceInChunk sd0.m_key.m_sequence
              (target.m_id, target.m_sequences.length))) ∧
      m'.m_maxChunkSize = m.m_maxChunkSize ∧ m'.m_primary = m.m_primary ∧
      m'.m_trackFirstSamples = m.m_trackFirstSamples := by
  simp only [Index.AddSequence] at h
  split at h
  · exact absurd (congrArg Prod.snd h) (by simp)
  rename_i htr
  rw [not_ne_iff] at htr
  rw [htr] at h
  split at h
  · exact absurd (congrArg Prod.snd h) (by simp)
  rename_i back hback
  refine ⟨back, ?_⟩
  split at h
  · rename_i hseal
    split at h
    · exact absurd (congrArg Prod.snd h) (by simp)
    rename_i hcnt
    rw [List.length_append, List.length_singleton, not_lt] at hcnt
    obtain ⟨hoff, hchunks, hkey, hrest⟩ := afterBoundary_none_elim h
    exact ⟨m.m_chunks, freshChunk (m.m_chunks.length + 1), hback, htr,
      Or.inr ⟨hseal, rfl, rfl, hcnt⟩, hoff, hchunks, hkey, hrest⟩
  · rename_i hseal
    obtain ⟨hoff, hchunks, hkey, hrest⟩ := afterBoundary_none_elim h
    exact ⟨m.m_chunks.dropLast, back, hback, htr, Or.inl ⟨hseal, rfl, rfl⟩,
      hoff, hchunks, hkey, hrest⟩

theorem finishAdd_err_elim {m : Index} {front : List ChunkDescriptor}
    {chunk : ChunkDescriptor} {kmap : List (Nat × Nat × Nat)} {sd : SequenceDescriptor}
    {s : Nat} {m' : Index} {err : IndexError}
    (h : finishAdd m front chunk kmap sd s = (m', some err)) :
    err = IndexError.chunkOffsetOverflow ∧
    trunc32 (usub s chunk.m_offset) ≠ usub s chunk.m_offset ∧
    m' = { m with m_chunks := front ++ [chunk], m_keyToSequenceInChunk := kmap } := by
  simp only [finishAdd] at h
  split at h
  · rename_i hoff
    have h1 := congrArg Prod.snd h
    simp only at h1
    cases h1
    exact ⟨rfl, hoff, (congrArg Prod.fst h).symm⟩
  · exact absurd (congrArg Prod.snd h) (by simp)

theorem afterBoundary_err_elim {m : Index} {front : List ChunkDescriptor}
    {c0 : ChunkDescriptor} {sd : SequenceDescriptor} {s : Nat} {m' : Index}
    {err : IndexError} (h : afterBoundary m front c0 sd s = (m', some err)) :
    (err = IndexError.sequenceCountOverflow ∧ m.m_primary = false ∧
      trunc32 c0.m_sequences.length ≠ c0.m_sequences.length ∧
      m' = { m with m_chunks := front ++ [bumpChunk m.m_trackFirstSamples c0 sd] }) ∨
    (err = IndexError.chunkOffsetOverflow ∧
      trunc32 (usub s c0.m_offset) ≠ usub s c0.m_offset ∧
      m'.m_chunks = front ++ [bumpChunk m.m_trackFirstSamples c0 sd] ∧
      ((m.m_primary = true ∧ m'.m_keyToSequenceInChunk = m.m_keyToSequenceInChunk) ∨
        (m.m_primary = false ∧
          trunc32 c0.m_sequences.length = c0.m_sequences.length ∧
          m'.m_keyToSequenceInChunk =
            insertKey m.m_keyToSequenceInChunk sd.m_key.m_sequence
              (c0.m_id, c0.m_sequences.length)))) := by
  simp only [afterBoundary] at h
  split at h
  · rename_i hp
    obtain ⟨he, hoff, rfl⟩ := finishAdd_err_elim h
    rw [bumpChunk_m_offset] at hoff
    exact Or.inr ⟨he, hoff, by rfl, Or.inl ⟨hp, rfl⟩⟩
  · rename_i hp
    rw [Bool.not_eq_true] at hp
    split at h
    · rename_i hpos
      rw [bumpChunk_m_sequences] at hpos
      have h1 := congrArg Prod.snd h
      simp only at h1
      cases h1
      exact Or.inl ⟨rfl, hp, hpos, (congrArg Prod.fst h).symm⟩
    · rename_i hpos
      rw [not_ne_iff, bumpChunk_m_sequences] at hpos
      obtain ⟨he, hoff, rfl⟩ := finishAdd_err_elim h
      rw [bumpChunk_m_offset] at hoff
      refine Or.inr ⟨he, hoff, by rfl, Or.inr ⟨hp, hpos, ?_⟩⟩
      rw [bumpChunk_m_sequences, bumpChunk_m_id, hpos]

theorem AddSequence_err_elim {m : Index} {sd0 : SequenceDescriptor} {s e : Nat}
    {m' : Index} {err : IndexError} (h : m.AddSequence sd0 s e = (m', some err)) :
    (err = IndexError.sequenceByteSizeOverflow ∧ trunc32 (usub e s) ≠ usub e s ∧
      m' = m) ∨
    (err = IndexError.emptyIndexAssertion ∧ m.m_chunks.getLast? = none ∧ m' = m) ∨
    (∃ back, m.m_chunks.getLast? = some back ∧ trunc32 (usub e s) = usub e s ∧
      ((err = IndexError.maxChunkCountExceeded ∧
        (0 < back.m_byteSize ∧
          m.m_maxChunkSize < wrap64 (back.m_byteSize + usub e s)) ∧
        CHUNKID_MAX < m.m_chunks.length + 1 ∧
        m' = { m with
          m_chunks := m.m_chunks ++ [freshChunk (m.m_chunks.length + 1)] }) ∨
      (∃ front target,
        ((¬(0 < back.m_byteSize ∧
              m.m_maxChunkSize < wrap64 (back.m_byteSize + usub e s)) ∧
            front = m.m_chunks.dropLast ∧ target = back) ∨
          ((0 < back.m_byteSize ∧
              m.m_maxChunkSize < wrap64 (back.m_byteSize + usub e s)) ∧
            front = m.m_chunks ∧ target = freshChunk (m.m_chunks.length + 1) ∧
            m.m_chunks.length + 1 ≤ CHUNKID_MAX)) ∧
        ((err = IndexError.sequenceCountOverflow ∧ m.m_primary = false ∧
            trunc32 target.m_sequences.length ≠ target.m_sequences.length ∧
            m' = { m with m_chunks := front ++
              [bumpChunk m.m_trackFirstSamples target
                { sd0 with m_byteSize := usub e s }] }) ∨
          (err = IndexError.chunkOffsetOverflow ∧
            trunc32 (usub s target.m_offset) ≠ usub s target.m_offset ∧
            m'.m_chunks = front ++
              [bumpChunk m.m_trackFirstSamples target
                { sd0 with m_byteSize := usub e s }] ∧
            ((m.m_primary = true ∧
                m'.m_keyToSequenceInChunk = m.m_keyToSequenceInChunk) ∨
              (m.m_primary = false ∧
                trunc32 target.m_sequences.length = target.m_sequences.length ∧
                m'.m_keyToSequenceInChunk =
                  insertKey m.m_keyToSequenceInChunk sd0.m_key.m_sequence
                    (target.m_id, target.m_sequences.length)))))))) := by
  simp only [Index.AddSequence] at h
  split at h
  · rename_i htr
    have h1 := congrArg Prod.snd h
    simp only at h1
    cases h1
    exact Or.inl ⟨rfl, htr, (congrArg Prod.fst h).symm⟩
  rename_i htr
  rw [not_ne_iff] at htr
  rw [htr] at h
  split at h
  · rename_i hnone
    have h1 := congrArg Prod.snd h
    simp only at h1
    cases h1
    exact Or.inr (Or.inl ⟨rfl, hnone, (congrArg Prod.fst h).symm⟩)
  rename_i back hback
  refine Or.inr (Or.inr ⟨back, hback, htr, ?_⟩)
  split at h
  · rename_i hseal
    split at h
    · rename_i hcnt
      rw [List.length_append, List.length_singleton] at hcnt
      have h1 := congrArg Prod.snd h
      simp only at h1
      cases h1
      exact Or.inl ⟨rfl, hseal, hcnt, (congrArg Prod.fst h).symm⟩
    rename_i hcnt
    rw [List.length_append, List.length_singleton, not_lt] at hcnt
    refine Or.inr ⟨m.m_chunks, freshChunk (m.m_chunks.length + 1),
      Or.inr ⟨hseal, rfl, rfl, hcnt⟩, ?_⟩
    rcases afterBoundary_err_elim h with h2 | h2
    · exact Or.inl ⟨h2.1, h2.2.1, h2.2.2.1, h2.2.2.2⟩
    · exact Or.inr ⟨h2.1, h2.2.1, h2.2.2.1, h2.2.2.2⟩
  · rename_i hseal
    refine Or.inr ⟨m.m_chunks.dropLast, back, Or.inl ⟨hseal, rfl, rfl⟩, ?_⟩
    rcases afterBoundary_err_elim h with h2 | h2
    · exact Or.inl ⟨h2.1, h2.2.1, h2.2.2.1, h2.2.2.2⟩
    · exact Or.inr ⟨h2.1, h2.2.1, h2.2.2.1, h2.2.2.2⟩

/-! List helpers. -/

theorem eq_dropLast_concat_of_getLast? {α : Type} {l : List α} {a : α}
    (h : l.getLast? = some a) : l = l.dropLast ++ [a] := by
  cases l with
  | nil => simp [List.getLast?] at h
  | cons b t =>
    have hne : b :: t ≠ [] := by simp
    rw [List.getLast?_eq_getLast _ hne] at h
    have h2 := List.dropLast_append_getLast hne
    rw [Option.some_inj] at h
    rw [h] at h2
    exact h2.symm

theorem getElem?_concat_cases {α : Type} (l : List α) (a : α) (i : Nat) :
    ((l ++ [a])[i]? = l[i]? ∧ (i < l.length ∨ l.length < i)) ∨
      (i = l.length ∧ (l ++ [a])[i]? = some a) := by
  rcases Nat.lt_trichotomy i l.length with hi | hi | hi
  · exact Or.inl ⟨List.getElem?_append_left hi, Or.inl hi⟩
  · subst hi
    exact Or.inr ⟨rfl, List.getElem?_concat_length l a⟩
  · refine Or.inl ⟨?_, Or.inr hi⟩
    rw [List.getElem?_eq_none (by simp; omega), List.getElem?_eq_none (by omega)]

/-! Generic preservation of invariants along a run of `AddSequence` calls. -/

theorem runAdds_preserves {Q : SequenceDescriptor × Nat × Nat → Prop} {P : Index → Prop}
    (hstep : ∀ m r m2, P m → Q r → m.AddSequence r.1 r.2.1 r.2.2 = (m2, none) → P m2) :
    ∀ reqs (m m2 : Index), (∀ r ∈ reqs, Q r) → P m → runAdds m reqs = (m2, none) → P m2 := by
  intro reqs
  induction reqs with
  | nil =>
    intro m m2 _ hp h
    simp only [runAdds, Prod.mk.injEq] at h
    rwa [← h.1]
  | cons r rest ih =>
    intro m m2 hq hp h
    simp only [runAdds] at h
    cases hA : m.AddSequence r.1 r.2.1 r.2.2 with
    | mk mi oe =>
      rw [hA] at h
      cases oe with
      | none =>
        exact ih mi m2 (fun x hx => hq x (List.mem_cons_of_mem _ hx))
          (hstep m r mi hp (hq r (List.mem_cons_self _ _)) hA) h
      | some err => simp at h

/-- The index produced by the constructor followed by `Reserve` satisfies the
structural invariant. -/
theorem GoodIndex_init (chunkSize : Nat) (primary trackFirstSamples : Bool)
    (sizeInBytes : Nat) :
    GoodIndex ((Index.create chunkSize primary trackFirstSamples).Reserve sizeInBytes) := by
  refine ⟨?_, ?_, ?_, ?_, ?_, ?_, ?_⟩
  · simp [Index.create, Index.Reserve]
  · intro i c hc
    rcases i with _ | i
    · simp [Index.create, Index.Reserve] at hc
      rw [← hc]
      rfl
    · simp [Index.create, Index.Reserve] at hc
  · show (List.nil ++ [emptyChunk]).length ≤ CHUNKID_MAX
    rw [List.nil_append, List.length_singleton, CHUNKID_MAX]
    norm_num
  · intro c hc
    simp [Index.create, Index.Reserve] at hc
    simp [hc, emptyChunk, sumBytes, sumSamples, wrap64]
  · intro _ c hc
    simp [Index.create, Index.Reserve] at hc
    simp [hc, emptyChunk, firstSamplesOk]
  · intro k cid pos hk
    simp [Index.create, Index.Reserve, lookupKey] at hk
  · intro _
    simp [Index.create, Index.Reserve]

theorem take_concat_of_le {α : Type} {l : List α} {x : α} {n : Nat} (h : n ≤ l.length) :
    (l ++ [x]).take n = l.take n := by
  induction l generalizing n with
  | nil =>
    have hn : n = 0 := Nat.le_zero.mp h
    subst hn
    rfl
  | cons b t ih =>
    cases n with
    | zero => rfl
    | succ n =>
      simp only [List.cons_append, List.take_succ_cons]
      rw [ih (by simpa using h)]

theorem sumBytes_concat (l : List SequenceDescriptor) (sd : SequenceDescriptor) :
    sumBytes (l ++ [sd]) = sumBytes l + sd.m_byteSize := by
  simp [sumBytes]

theorem sumSamples_concat (l : List SequenceDescriptor) (sd : SequenceDescriptor) :
    sumSamples (l ++ [sd]) = sumSamples l + sd.m_numberOfSamples := by
  simp [sumSamples]

theorem lookupKey_insertKey_elim {map : List (Nat × Nat × Nat)} {k0 k : Nat}
    {v w : Nat × Nat} (h : lookupKey (insertKey map k0 v) k = some w) :
    lookupKey map k = some w ∨ (k = k0 ∧ lookupKey map k = none ∧ w = v) := by
  induction map with
  | nil =>
    simp only [insertKey, lookupKey] at h
    split at h
    · rename_i hk
      cases h
      exact Or.inr ⟨hk.symm, rfl, rfl⟩
    · simp [lookupKey] at h
  | cons a rest ih =>
    simp only [insertKey] at h
    split at h
    · rename_i hk0
      simp only [lookupKey] at h ⊢
      exact Or.inl h
    · rename_i hk0
      simp only [lookupKey] at h ⊢
      split at h
      · rename_i hk
        rw [if_pos hk]
        exact Or.inl h
      · rename_i hk
        rw [if_neg hk]
        exact ih h

/-- A successful `AddSequence` only ever extends the stored chunks: every
chunk position that resolved before still resolves, to a chunk holding at
least the same sequences at the same positions, with the same id, offset and
first-samples prefix. -/
theorem AddSequence_chunks_mono {m : Index} {sd0 : SequenceDescriptor} {s e : Nat}
    {m2 : Index} (h : m.AddSequence sd0 s e = (m2, none)) (cid : Nat)
    (c : ChunkDescriptor) (hc : m.m_chunks[cid]? = some c) :
    ∃ c2, m2.m_chunks[cid]? = some c2 ∧ c2.m_id = c.m_id ∧
      ∀ (p : Nat) (sdd : SequenceDescriptor), c.m_sequences[p]? = some sdd →
        c2.m_sequences[p]? = some sdd := by
  obtain ⟨back, front, target, hback, htr, hbr, hoff, hchunks, hkey, hmax, hprim, htrack⟩ :=
    AddSequence_none_elim h
  have hdec := eq_dropLast_concat_of_getLast? hback
  have hcid : cid < m.m_chunks.length := by
    by_contra hno
    rw [List.getElem?_eq_none (Nat.le_of_not_lt hno)] at hc
    cases hc
  rcases hbr with ⟨hns, hfr, htg⟩ | ⟨hseal, hfr, htg, hcnt⟩
  · subst hfr htg
    rcases Nat.lt_trichotomy cid m.m_chunks.dropLast.length with hi | hi | hi
    · refine ⟨c, ?_, rfl, fun p sdd hp => hp⟩
      rw [hchunks, List.getElem?_append_left hi]
      rw [hdec, List.getElem?_append_left hi] at hc
      exact hc
    · have hcb : c = target := by
        rw [hdec] at hc
        rw [hi, List.getElem?_concat_length] at hc
        exact (Option.some_inj.mp hc).symm
      refine ⟨appendSeq (bumpChunk m.m_trackFirstSamples target
          { sd0 with m_byteSize := usub e s })
          { sd0 with m_byteSize := usub e s } (usub s target.m_offset), ?_, ?_, ?_⟩
      · rw [hchunks, hi, List.getElem?_concat_length]
      · rw [hcb, appendSeq_m_id, bumpChunk_m_id]
      · intro p sdd hp
        rw [hcb] at hp
        have hplt : p < target.m_sequences.length := by
          by_contra hno
          rw [List.getElem?_eq_none (Nat.le_of_not_lt hno)] at hp
          cases hp
        rw [appendSeq_m_sequences, bumpChunk_m_sequences,
          List.getElem?_append_left hplt]
        exact hp
    · exfalso
      have hlen2 := congrArg List.length hdec
      rw [List.length_append, List.length_singleton] at hlen2
      omega
  · subst hfr htg
    refine ⟨c, ?_, rfl, fun p sdd hp => hp⟩
    rw [hchunks, List.getElem?_append_left hcid]
    exact hc

theorem GoodIndex_step_ne {m : Index} {sd0 : SequenceDescriptor} {s e : Nat}
    {m2 : Index} (h : m.AddSequence sd0 s e = (m2, none)) : m2.m_chunks ≠ [] := by
  obtain ⟨back, front, target, hback, htr, hbr, hoff, hchunks, hkey, hmax, hprim, htrack⟩ :=
    AddSequence_none_elim h
  rw [hchunks]
  simp

theorem GoodIndex_step_ids {m : Index} {sd0 : SequenceDescriptor} {s e : Nat}
    {m2 : Index}
    (hids : ∀ (i : Nat) (c : ChunkDescriptor), m.m_chunks[i]? = some c → c.m_id = i)
    (h : m.AddSequence sd0 s e = (m2, none)) :
    ∀ (i : Nat) (c : ChunkDescriptor), m2.m_chunks[i]? = some c → c.m_id = i := by
  obtain ⟨back, front, target, hback, htr, hbr, hoff, hchunks, hkey, hmax, hprim, htrack⟩ :=
    AddSequence_none_elim h
  have hdec := eq_dropLast_concat_of_getLast? hback
  intro i c hc
  rw [hchunks] at hc
  rcases hbr with ⟨hns, hfr, htg⟩ | ⟨hseal, hfr, htg, hcnt⟩
  · subst hfr htg
    rcases getElem?_concat_cases m.m_chunks.dropLast
      (appendSeq (bumpChunk m.m_trackFirstSamples target
        { sd0 with m_byteSize := usub e s })
        { sd0 with m_byteSize := usub e s } (usub s target.m_offset)) i with
      ⟨heq, _⟩ | ⟨hi, heq⟩
    · rw [heq] at hc
      have hlt : i < m.m_chunks.dropLast.length := by
        by_contra hno
        rw [List.getElem?_eq_none (Nat.le_of_not_lt hno)] at hc
        cases hc
      apply hids
      rw [hdec, List.getElem?_append_left hlt]
      exact hc
    · rw [heq] at hc
      have hcfc := Option.some_inj.mp hc
      have hsome : m.m_chunks[m.m_chunks.dropLast.length]? = some target := by
        have h2 := List.getElem?_concat_length m.m_chunks.dropLast target
        rw [← hdec] at h2
        exact h2
      rw [← hcfc, appendSeq_m_id, bumpChunk_m_id, hi]
      exact hids _ _ hsome
  · subst hfr htg
    rcases getElem?_concat_cases m.m_chunks
      (appendSeq (bumpChunk m.m_trackFirstSamples
        (freshChunk (m.m_chunks.length + 1)) { sd0 with m_byteSize := usub e s })
        { sd0 with m_byteSize := usub e s }
        (usub s (freshChunk (m.m_chunks.length + 1)).m_offset)) i with
      ⟨heq, _⟩ | ⟨hi, heq⟩
    · rw [heq] at hc
      exact hids i c hc
    · rw [heq] at hc
      have hcfc := Option.some_inj.mp hc
      rw [← hcfc, appendSeq_m_id, bumpChunk_m_id, freshChunk_m_id, hi]
      have hlt : m.m_chunks.length < 2 ^ 32 := by
        have : CHUNKID_MAX = 2 ^ 32 - 1 := rfl
        omega
      rw [Nat.add_sub_cancel, trunc32_eq_self hlt]

theorem GoodIndex_step_count {m : Index} {sd0 : SequenceDescriptor} {s e : Nat}
    {m2 : Index} (hcount : m.m_chunks.length ≤ CHUNKID_MAX)
    (h : m.AddSequence sd0 s e = (m2, none)) : m2.m_chunks.length ≤ CHUNKID_MAX := by
  obtain ⟨back, front, target, hback, htr, hbr, hoff, hchunks, hkey, hmax, hprim, htrack⟩ :=
    AddSequence_none_elim h
  have hdec := eq_dropLast_concat_of_getLast? hback
  have hlen2 := congrArg List.length hdec
  rw [List.length_append, List.length_singleton] at hlen2
  rw [hchunks, List.length_append, List.length_singleton]
  rcases hbr with ⟨hns, hfr, htg⟩ | ⟨hseal, hfr, htg, hcnt⟩
  · subst hfr htg
    omega
  · subst hfr htg
    omega

theorem GoodIndex_step_sums {m : Index} {sd0 : SequenceDescriptor} {s e : Nat}
    {m2 : Index}
    (hsums : ∀ c ∈ m.m_chunks, c.m_byteSize = wrap64 (sumBytes c.m_sequences) ∧
      c.m_numberOfSequences = c.m_sequences.length ∧
      c.m_numberOfSamples = sumSamples c.m_sequences)
    (h : m.AddSequence sd0 s e = (m2, none)) :
    ∀ c ∈ m2.m_chunks, c.m_byteSize = wrap64 (sumBytes c.m_sequences) ∧
      c.m_numberOfSequences = c.m_sequences.length ∧
      c.m_numberOfSamples = sumSamples c.m_sequences := by
  obtain ⟨back, front, target, hback, htr, hbr, hoff, hchunks, hkey, hmax, hprim, htrack⟩ :=
    AddSequence_none_elim h
  have hdec := eq_dropLast_concat_of_getLast? hback
  have htmem : target ∈ m.m_chunks ∨
      target = freshChunk (m.m_chunks.length + 1) := by
    rcases hbr with ⟨hns, hfr, htg⟩ | ⟨hseal, hfr, htg, hcnt⟩
    · subst htg
      left
      rw [hdec]
      exact List.mem_append_right _ (List.mem_singleton_self _)
    · exact Or.inr htg
  have htsum : target.m_byteSize = wrap64 (sumBytes target.m_sequences) ∧
      target.m_numberOfSequences = target.m_sequences.length ∧
      target.m_numberOfSamples = sumSamples target.m_sequences := by
    rcases htmem with hmem | hnew
    · exact hsums target hmem
    · rw [hnew]
      simp [freshChunk, emptyChunk, sumBytes, sumSamples, wrap64]
  intro c hc
  rw [hchunks] at hc
  rcases List.mem_append.mp hc with hcf | hcl
  · have hcm : c ∈ m.m_chunks := by
      rcases hbr with ⟨hns, hfr, htg⟩ | ⟨hseal, hfr, htg, hcnt⟩
      · subst hfr
        exact List.dropLast_subset _ hcf
      · subst hfr
        exact hcf
    exact hsums c hcm
  · have hcfc := List.mem_singleton.mp hcl
    subst hcfc
    refine ⟨?_, ?_, ?_⟩
    · rw [appendSeq_m_byteSize, bumpChunk_m_byteSize, appendSeq_m_sequences,
        bumpChunk_m_sequences, sumBytes_concat, htsum.1, wrap64_add_left]
    · rw [appendSeq_m_numberOfSequences, bumpChunk_m_numberOfSequences,
        appendSeq_m_sequences, bumpChunk_m_sequences, List.length_append,
        List.length_singleton, htsum.2.1]
    · rw [appendSeq_m_numberOfSamples, bumpChunk_m_numberOfSamples,
        appendSeq_m_sequences, bumpChunk_m_sequences, sumSamples_concat, htsum.2.2]

theorem GoodIndex_step_firsts {m : Index} {sd0 : SequenceDescriptor} {s e : Nat}
    {m2 : Index}
    (hsums : ∀ c ∈ m.m_chunks, c.m_byteSize = wrap64 (sumBytes c.m_sequences) ∧
      c.m_numberOfSequences = c.m_sequences.length ∧
      c.m_numberOfSamples = sumSamples c.m_sequences)
    (hfirsts : m.m_trackFirstSamples = true → ∀ c ∈ m.m_chunks, firstSamplesOk c)
    (h : m.AddSequence sd0 s e = (m2, none)) :
    m2.m_trackFirstSamples = true → ∀ c ∈ m2.m_chunks, firstSamplesOk c := by
  obtain ⟨back, front, target, hback, htr, hbr, hoff, hchunks, hkey, hmax, hprim, htrack⟩ :=
    AddSequence_none_elim h
  have hdec := eq_dropLast_concat_of_getLast? hback
  intro ht c hc
  rw [htrack] at ht
  rw [ht] at hchunks
  have htmem : target ∈ m.m_chunks ∨
      target = freshChunk (m.m_chunks.length + 1) := by
    rcases hbr with ⟨hns, hfr, htg⟩ | ⟨hseal, hfr, htg, hcnt⟩
    · subst htg
      left
      rw [hdec]
      exact List.mem_append_right _ (List.mem_singleton_self _)
    · exact Or.inr htg
  have htfs : firstSamplesOk target := by
    rcases htmem with hmem | hnew
    · exact hfirsts ht target hmem
    · rw [hnew]
      constructor
      · rfl
      · intro i hi
        simp [freshChunk, emptyChunk] at hi
  have htsam : target.m_numberOfSamples = sumSamples target.m_sequences := by
    rcases htmem with hmem | hnew
    · exact (hsums target hmem).2.2
    · rw [hnew]
      simp [freshChunk, emptyChunk, sumSamples]
  rw [hchunks] at hc
  rcases List.mem_append.mp hc with hcf | hcl
  · have hcm : c ∈ m.m_chunks := by
      rcases hbr with ⟨hns, hfr, htg⟩ | ⟨hseal, hfr, htg, hcnt⟩
      · subst hfr
        exact List.dropLast_subset _ hcf
      · subst hfr
        exact hcf
    exact hfirsts ht c hcm
  · have hcfc := List.mem_singleton.mp hcl
    subst hcfc
    constructor
    · rw [appendSeq_m_firstSamples, bumpChunk_m_firstSamples_of_track,
        appendSeq_m_sequences, bumpChunk_m_sequences, List.length_append,
        List.length_append, List.length_singleton, List.length_singleton, htfs.1]
    · intro i hi
      rw [appendSeq_m_firstSamples, bumpChunk_m_firstSamples_of_track] at hi ⊢
      rw [appendSeq_m_sequences, bumpChunk_m_sequences]
      rw [List.length_append, List.length_singleton] at hi
      rcases Nat.lt_or_ge i target.m_firstSamples.length with hlt | hge
      · have hile : i ≤ target.m_sequences.length := by
          rw [htfs.1] at hlt
          omega
        rw [List.getElem?_append_left hlt, htfs.2 i hlt, take_concat_of_le hile]
      · have hieq : i = target.m_firstSamples.length := by omega
        rw [hieq, List.getElem?_concat_length, htfs.1, take_concat_of_le (Nat.le_refl _),
          List.take_length, htsam]

theorem GoodIndex_step_primaryEmpty {m : Index} {sd0 : SequenceDescriptor} {s e : Nat}
    {m2 : Index} (hpe : m.m_primary = true → m.m_keyToSequenceInChunk = [])
    (h : m.AddSequence sd0 s e = (m2, none)) :
    m2.m_primary = true → m2.m_keyToSequenceInChunk = [] := by
  obtain ⟨back, front, target, hback, htr, hbr, hoff, hchunks, hkey, hmax, hprim, htrack⟩ :=
    AddSequence_none_elim h
  intro hp2
  have hpm : m.m_primary = true := by
    rw [← hprim]
    exact hp2
  rcases hkey with ⟨_, hmap⟩ | ⟨hpF, _, _⟩
  · rw [hmap]
    exact hpe hpm
  · rw [hpm] at hpF
    cases hpF

theorem GoodIndex_step_keymap {m : Index} {sd0 : SequenceDescriptor} {s e : Nat}
    {m2 : Index}
    (hids : ∀ (i : Nat) (c : ChunkDescriptor), m.m_chunks[i]? = some c → c.m_id = i)
    (hkeymap : KeyMapValid m)
    (h : m.AddSequence sd0 s e = (m2, none)) : KeyMapValid m2 := by
  obtain ⟨back, front, target, hback, htr, hbr, hoff, hchunks, hkey, hmax, hprim, htrack⟩ :=
    AddSequence_none_elim h
  have hdec := eq_dropLast_concat_of_getLast? hback
  intro k cid pos hk
  have hold : ∀ w, lookupKey m.m_keyToSequenceInChunk k = some w → w = (cid, pos) →
      ∃ c sd, m2.m_chunks[cid]? = some c ∧ c.m_sequences[pos]? = some sd ∧
        sd.m_key.m_sequence = k := by
    intro w hw hweq
    subst hweq
    obtain ⟨c, sdd, hcc, hss, hkk⟩ := hkeymap k cid pos hw
    obtain ⟨c2, hc2, _, hm⟩ := AddSequence_chunks_mono h cid c hcc
    exact ⟨c2, sdd, hc2, hm pos sdd hss, hkk⟩
  rcases hkey with ⟨hpT, hmap⟩ | ⟨hpF, hposok, hmap⟩
  · rw [hmap] at hk
    exact hold _ hk rfl
  · rw [hmap] at hk
    rcases lookupKey_insertKey_elim hk with hsome | ⟨hkk0, _, hw⟩
    · exact hold _ hsome rfl
    · rw [Prod.mk.injEq] at hw
      obtain ⟨hcid, hpos⟩ := hw
      refine ⟨appendSeq (bumpChunk m.m_trackFirstSamples target
          { sd0 with m_byteSize := usub e s })
          { sd0 with m_byteSize := usub e s } (usub s target.m_offset),
        { { sd0 with m_byteSize := usub e s } with
            m_chunkOffsetBytes := usub s target.m_offset }, ?_, ?_, ?_⟩
      · rcases hbr with ⟨hns, hfr, htg⟩ | ⟨hseal, hfr, htg, hcnt⟩
        · subst hfr htg
          have hsome2 : m.m_chunks[m.m_chunks.dropLast.length]? = some target := by
            have h2 := List.getElem?_concat_length m.m_chunks.dropLast target
            rw [← hdec] at h2
            exact h2
          have htid : target.m_id = m.m_chunks.dropLast.length := hids _ _ hsome2
          rw [hchunks, hcid, htid]
          exact List.getElem?_concat_length _ _
        · rw [hfr] at hchunks
          have htid : target.m_id = m.m_chunks.length := by
            rw [htg, freshChunk_m_id, Nat.add_sub_cancel]
            exact trunc32_eq_self (by
              have hCM : CHUNKID_MAX = 2 ^ 32 - 1 := rfl
              omega)
          rw [hchunks, hcid, htid]
          exact List.getElem?_concat_length _ _
      · rw [appendSeq_m_sequences, bumpChunk_m_sequences, hpos]
        exact List.getElem?_concat_length _ _
      · exact hkk0.symm

theorem GoodIndex_step {m : Index} {sd0 : SequenceDescriptor} {s e : Nat} {m2 : Index}
    (hg : GoodIndex m) (h : m.AddSequence sd0 s e = (m2, none)) : GoodIndex m2 :=
  ⟨GoodIndex_step_ne h, GoodIndex_step_ids hg.ids h,
    GoodIndex_step_count hg.count h, GoodIndex_step_sums hg.sums h,
    GoodIndex_step_firsts hg.sums hg.firsts h, GoodIndex_step_keymap hg.ids hg.keymap h,
    GoodIndex_step_primaryEmpty hg.primaryEmpty h⟩

/-- Every state reached from the seeded index by a successful run satisfies
the structural invariant. -/
theorem GoodIndex_run {chunkSize : Nat} {primary trackFirstSamples : Bool}
    {sizeInBytes : Nat} {reqs : List (SequenceDescriptor × Nat × Nat)} {m2 : Index}
    (h : runAdds ((Index.create chunkSize primary trackFirstSamples).Reserve sizeInBytes)
      reqs = (m2, none)) : GoodIndex m2 :=
  @runAdds_preserves (fun _ => True) GoodIndex
    (fun _ _ _ hp _ hA => GoodIndex_step hp hA) reqs _ m2 (fun _ _ => trivial)
    (GoodIndex_init chunkSize primary trackFirstSamples sizeInBytes) h

theorem SizeInv_init (chunkSize : Nat) (primary trackFirstSamples : Bool)
    (sizeInBytes : Nat) :
    SizeInv ((Index.create chunkSize primary trackFirstSamples).Reserve sizeInBytes) := by
  constructor
  · intro c hc
    simp [Index.create, Index.Reserve] at hc
    rw [hc]
    intro sd hsd
    simp [emptyChunk] at hsd
  · intro c hc
    simp [Index.create, Index.Reserve] at hc
    rw [hc]
    left
    simp [emptyChunk]
  · intro _ c hc _
    simp [Index.create, Index.Reserve] at hc
    rw [hc]
    rfl

theorem SizeInv_step {m : Index} {sd0 : SequenceDescriptor} {s e : Nat} {m2 : Index}
    (hsi : SizeInv m) (hse : s < e) (hee : e < 2 ^ 64)
    (h : m.AddSequence sd0 s e = (m2, none)) : SizeInv m2 := by
  obtain ⟨back, front, target, hback, htr, hbr, hoff, hchunks, hkey, hmax, hprim, htrack⟩ :=
    AddSequence_none_elim h
  have hdec := eq_dropLast_concat_of_getLast? hback
  have hr : usub e s = e - s := usub_of_le (Nat.le_of_lt hse) hee
  have hrpos : 0 < usub e s := by omega
  have hrlt : usub e s < 2 ^ 32 := by
    rw [← htr]
    exact Nat.mod_lt _ (by norm_num)
  have htmem : target ∈ m.m_chunks ∨
      target = freshChunk (m.m_chunks.length + 1) := by
    rcases hbr with ⟨hns, hfr, htg⟩ | ⟨hseal, hfr, htg, hcnt⟩
    · subst htg
      left
      rw [hdec]
      exact List.mem_append_right _ (List.mem_singleton_self _)
    · exact Or.inr htg
  have hmemold : ∀ c ∈ front, c ∈ m.m_chunks := by
    rcases hbr with ⟨hns, hfr, htg⟩ | ⟨hseal, hfr, htg, hcnt⟩
    · subst hfr
      exact fun c hc => List.dropLast_subset _ hc
    · subst hfr
      exact fun c hc => hc
  have htb : target.m_byteSize ≤ m.m_maxChunkSize ∨ target.m_byteSize < 2 ^ 32 := by
    rcases htmem with hmem | hnew
    · rcases hsi.bound target hmem with hle | ⟨_, hlt⟩
      · exact Or.inl hle
      · exact Or.inr hlt
    · rw [hnew, freshChunk_m_byteSize]
      exact Or.inr (by norm_num)
  constructor
  · intro c hc
    rw [hchunks] at hc
    rcases List.mem_append.mp hc with hcf | hcl
    · exact hsi.seqPos c (hmemold c hcf)
    · have hcfc := List.mem_singleton.mp hcl
      subst hcfc
      intro sdd hsdd
      rw [appendSeq_m_sequences, bumpChunk_m_sequences] at hsdd
      rcases List.mem_append.mp hsdd with hin | hnew
      · rcases htmem with hmem | hnewt
        · exact hsi.seqPos target hmem sdd hin
        · rw [hnewt, freshChunk_m_sequences] at hin
          cases hin
      · have hx := List.mem_singleton.mp hnew
        rw [hx]
        exact hrpos
  · intro c hc
    rw [hmax]
    rw [hchunks] at hc
    rcases List.mem_append.mp hc with hcf | hcl
    · exact hsi.bound c (hmemold c hcf)
    · have hcfc := List.mem_singleton.mp hcl
      subst hcfc
      rw [appendSeq_m_byteSize, bumpChunk_m_byteSize, sd_update_m_byteSize,
        appendSeq_m_sequences, bumpChunk_m_sequences]
      rcases hbr with ⟨hns, hfr, htg⟩ | ⟨hseal, hfr, htg, hcnt⟩
      · rw [← htg] at hns
        by_cases hB : target.m_byteSize = 0
        · rw [hB, Nat.zero_add, wrap64_eq_self (lt_trans hrlt (by norm_num))]
          by_cases hle : usub e s ≤ m.m_maxChunkSize
          · exact Or.inl hle
          · have hmx : m.m_maxChunkSize < 2 ^ 32 := by omega
            have htmem2 : target ∈ m.m_chunks := by
              rw [htg, hdec]
              exact List.mem_append_right _ (List.mem_singleton_self _)
            have hnil : target.m_sequences = [] := hsi.zeroEmpty hmx target htmem2 hB
            rw [hnil, List.nil_append]
            exact Or.inr ⟨⟨_, rfl, rfl⟩, hrlt⟩
        · have hBpos : 0 < target.m_byteSize := Nat.pos_of_ne_zero hB
          have hle : wrap64 (target.m_byteSize + usub e s) ≤ m.m_maxChunkSize := by
            by_contra hno
            exact hns ⟨hBpos, by omega⟩
          exact Or.inl hle
      · rw [htg, freshChunk_m_byteSize, freshChunk_m_sequences, Nat.zero_add,
          List.nil_append, wrap64_eq_self (lt_trans hrlt (by norm_num))]
        by_cases hle : usub e s ≤ m.m_maxChunkSize
        · exact Or.inl hle
        · exact Or.inr ⟨⟨_, rfl, rfl⟩, hrlt⟩
  · intro hmx c hc h0
    rw [hmax] at hmx
    rw [hchunks] at hc
    rcases List.mem_append.mp hc with hcf | hcl
    · exact hsi.zeroEmpty hmx c (hmemold c hcf) h0
    · have hcfc := List.mem_singleton.mp hcl
      subst hcfc
      exfalso
      rw [appendSeq_m_byteSize, bumpChunk_m_byteSize, sd_update_m_byteSize] at h0
      have hBlt : target.m_byteSize < 2 ^ 32 := by
        rcases htb with hle | hlt
        · omega
        · exact hlt
      rw [wrap64_eq_self (by omega : target.m_byteSize + usub e s < 2 ^ 64)] at h0
      omega

/-! Run-level wrappers and bridge lemmas for the claim theorems. -/

theorem SizeInv_run {chunkSize : Nat} {primary trackFirstSamples : Bool}
    {sizeInBytes : Nat} {reqs : List (SequenceDescriptor × Nat × Nat)} {m2 : Index}
    (h : runAdds ((Index.create chunkSize primary trackFirstSamples).Reserve sizeInBytes)
      reqs = (m2, none))
    (hq : ∀ r ∈ reqs, r.2.1 < r.2.2 ∧ r.2.2 < 2 ^ 64) :
    SizeInv m2 :=
  @runAdds_preserves (fun r => r.2.1 < r.2.2 ∧ r.2.2 < 2 ^ 64) SizeInv
    (fun _ _ _ hp hqr hA => SizeInv_step hp hqr.1 hqr.2 hA)
    reqs _ m2 hq (SizeInv_init chunkSize primary trackFirstSamples sizeInBytes) h

theorem runAdds_flags {m : Index} {reqs : List (SequenceDescriptor × Nat × Nat)}
    {m2 : Index} (h : runAdds m reqs = (m2, none)) :
    m2.m_maxChunkSize = m.m_maxChunkSize ∧ m2.m_primary = m.m_primary ∧
    m2.m_trackFirstSamples = m.m_trackFirstSamples := by
  refine @runAdds_preserves (fun _ => True)
    (fun mm => mm.m_maxChunkSize = m.m_maxChunkSize ∧ mm.m_primary = m.m_primary ∧
      mm.m_trackFirstSamples = m.m_trackFirstSamples)
    (fun mm r m3 hp _ hA => ?_) reqs m m2 (fun _ _ => trivial) ⟨rfl, rfl, rfl⟩ h
  obtain ⟨back, front, target, hback, htr, hbr, hoff, hchunks, hkey, hmax, hprim, htrack⟩ :=
    AddSequence_none_elim hA
  exact ⟨hmax.trans hp.1, hprim.trans hp.2.1, htrack.trans hp.2.2⟩

theorem AddSequence_lookup_mono {m : Index} {sd0 : SequenceDescriptor} {s e : Nat}
    {m2 : Index} (h : m.AddSequence sd0 s e = (m2, none)) {k : Nat} {w : Nat × Nat}
    (hk : lookupKey m.m_keyToSequenceInChunk k = some w) :
    lookupKey m2.m_keyToSequenceInChunk k = some w := by
  obtain ⟨back, front, target, hback, htr, hbr, hoff, hchunks, hkey, hmax, hprim, htrack⟩ :=
    AddSequence_none_elim h
  rcases hkey with ⟨_, hmap⟩ | ⟨_, _, hmap⟩
  · rw [hmap]
    exact hk
  · rw [hmap]
    exact lookupKey_insertKey_mono hk _ _

theorem runAdds_lookup_mono {reqs : List (SequenceDescriptor × Nat × Nat)} :
    ∀ {m m2 : Index}, runAdds m reqs = (m2, none) → ∀ {k : Nat} {w : Nat × Nat},
      lookupKey m.m_keyToSequenceInChunk k = some w →
      lookupKey m2.m_keyToSequenceInChunk k = some w := by
  induction reqs with
  | nil =>
    intro m m2 h k w hk
    simp only [runAdds, Prod.mk.injEq] at h
    rw [← h.1]
    exact hk
  | cons r rest ih =>
    intro m m2 h k w hk
    simp only [runAdds] at h
    cases hA : m.AddSequence r.1 r.2.1 r.2.2 with
    | mk mi oe =>
      rw [hA] at h
      cases oe with
      | none => exact ih h (AddSequence_lookup_mono hA hk)
      | some err => simp at h

theorem AddSequence_key_inserted {m : Index} {sd0 : SequenceDescriptor} {s e : Nat}
    {m2 : Index} (hp : m.m_primary = false) (h : m.AddSequence sd0 s e = (m2, none)) :
    ∃ w, lookupKey m2.m_keyToSequenceInChunk sd0.m_key.m_sequence = some w := by
  obtain ⟨back, front, target, hback, htr, hbr, hoff, hchunks, hkey, hmax, hprim, htrack⟩ :=
    AddSequence_none_elim h
  rcases hkey with ⟨hpT, _⟩ | ⟨_, _, hmap⟩
  · rw [hp] at hpT
    cases hpT
  · rw [hmap, lookupKey_insertKey_self]
    exact ⟨_, rfl⟩

theorem runAdds_keys_present {reqs : List (SequenceDescriptor × Nat × Nat)} :
    ∀ {m m2 : Index}, m.m_primary = false → runAdds m reqs = (m2, none) →
      ∀ r ∈ reqs, ∃ w,
        lookupKey m2.m_keyToSequenceInChunk r.1.m_key.m_sequence = some w := by
  induction reqs with
  | nil =>
    intro m m2 _ _ r hr
    cases hr
  | cons r0 rest ih =>
    intro m m2 hp h r hr
    simp only [runAdds] at h
    cases hA : m.AddSequence r0.1 r0.2.1 r0.2.2 with
    | mk mi oe =>
      rw [hA] at h
      cases oe with
      | none =>
        have hpmi : mi.m_primary = false := by
          obtain ⟨_, _, _, _, _, _, _, _, _, _, hprim, _⟩ := AddSequence_none_elim hA
          rw [hprim, hp]
        rcases List.mem_cons.mp hr with hr0 | hrr
        · subst hr0
          obtain ⟨w, hw⟩ := AddSequence_key_inserted hp hA
          exact ⟨w, runAdds_lookup_mono h hw⟩
        · exact ih hpmi h r hrr
      | some err => simp at h

/-- Symbolic computation of the sequence-count overflow error path: when
the byte-size check passes, the last chunk is not sealed, the index is
secondary and the chunk's sequence count does not fit in 32 bits,
`AddSequence` raises the "Number of sequences overflow" error. -/
theorem AddSequence_posOverflow_intro {m : Index} {back : ChunkDescriptor}
    {sd0 : SequenceDescriptor} {s e : Nat}
    (hback : m.m_chunks.getLast? = some back)
    (htr : trunc32 (usub e s) = usub e s)
    (hns : ¬(0 < back.m_byteSize ∧
      m.m_maxChunkSize < wrap64 (back.m_byteSize + usub e s)))
    (hp : m.m_primary = false)
    (hpos : trunc32 back.m_sequences.length ≠ back.m_sequences.length) :
    (m.AddSequence sd0 s e).2 = some IndexError.sequenceCountOverflow := by
  simp only [Index.AddSequence]
  rw [if_neg (not_ne_iff.mpr htr)]
  split
  · rename_i hnone
    rw [hback] at hnone
    cases hnone
  · rename_i b hb
    have hbb : b = back := by
      rw [hback] at hb
      exact (Option.some_inj.mp hb).symm
    rw [hbb]
    rw [htr, if_neg hns]
    simp only [afterBoundary]
    rw [if_neg (by rw [hp]; exact Bool.false_ne_true : ¬m.m_primary = true)]
    rw [bumpChunk_m_sequences, if_pos hpos]

theorem sd_update_m_numberOfSamples (sd : SequenceDescriptor) (b : Nat) :
    ({ sd with m_byteSize := b }).m_numberOfSamples = sd.m_numberOfSamples := rfl

/-- A chunk list is never equal to itself with the last chunk bumped, nor
to itself with one more chunk appended. -/
theorem chunks_ne_extension {m : Index} {back : ChunkDescriptor}
    (hback : m.m_chunks.getLast? = some back) :
    (∀ (tr : Bool) (sd : SequenceDescriptor),
      m.m_chunks ≠ m.m_chunks.dropLast ++ [bumpChunk tr back sd]) ∧
    (∀ nc : ChunkDescriptor, m.m_chunks ≠ m.m_chunks ++ [nc]) := by
  constructor
  · intro tr sd hch
    have h1 := congrArg List.getLast? hch
    rw [hback, List.getLast?_concat] at h1
    have h2 := congrArg ChunkDescriptor.m_numberOfSequences (Option.some_inj.mp h1)
    rw [bumpChunk_m_numberOfSequences] at h2
    omega
  · intro nc hch
    have h1 := congrArg List.length hch
    rw [List.length_append, List.length_singleton] at h1
    omega

/-! The claim theorems. -/

/-- Claim C1 (code bug): the offset chaining is the clear intent of
`Indexer.h:107` — its right-hand side names `previousChunk` — but line 100,
`const auto& previousChunk = chunk;`, binds a reference to the *pointer*
`chunk`, which line 105 repoints at the freshly pushed chunk, so line 107
reads the new chunk's own zeroed fields and every newly opened chunk gets
offset 0.  On the contiguous three-record build the run succeeds and the
first chunk ends at `0 + 6`, yet the second chunk's offset is 0, refuting
the claimed adjacent-pair equation at `i = 0` (`0 + 6 ≠ 0`). -/
theorem C1_offset_chaining_code_bug :
    (runAdds wseedA wreqsA).2 = none ∧
    (∃ a, wrunA.m_chunks[0]? = some a ∧ a.m_offset = 0 ∧ a.m_byteSize = 6) ∧
    (∃ b, wrunA.m_chunks[1]? = some b ∧ b.m_offset = 0) ∧
    ¬(∀ (i : Nat) (a b : ChunkDescriptor), wrunA.m_chunks[i]? = some a →
        wrunA.m_chunks[i + 1]? = some b →
        a.m_offset + a.m_byteSize = b.m_offset) := by
  refine ⟨by decide,
    ⟨(wrunA.m_chunks[0]?).getD emptyChunk, by decide, by decide, by decide⟩,
    ⟨(wrunA.m_chunks[1]?).getD emptyChunk, by decide, by decide⟩, fun hall => ?_⟩
  exact absurd (hall 0 ((wrunA.m_chunks[0]?).getD emptyChunk)
    ((wrunA.m_chunks[1]?).getD emptyChunk) (by decide) (by decide)) (by decide)

/-- Claim C3 counterexample: a successful `Reserve`-then-`AddSequence` run
in which a zero-byte record is admitted first and a record of 2 bytes is
then admitted into the same chunk (the boundary test only fires on chunks
of nonzero byte size), leaving a chunk whose byte size 2 exceeds the
maximum chunk size 1 while the chunk holds two sequences, not one. -/
theorem C3_counterexample :
    (runAdds ((Index.create 1 true false).Reserve 0)
      [(wsd 1 1, 0, 0), (wsd 2 1, 0, 2)]).2 = none ∧
    ∃ c, cexC3.m_chunks[0]? = some c ∧ cexC3.m_maxChunkSize < c.m_byteSize ∧
      c.m_sequences.length = 2 :=
  ⟨by decide, (cexC3.m_chunks[0]?).getD emptyChunk, by decide, by decide, by decide⟩

/-- Claim C3 (amended): after any successful sequence of `Reserve` followed
by `AddSequence` calls in which every record has nonzero byte size (its
start offset is strictly below its end offset, both within the `size_t`
range), no chunk's byte size exceeds `maxChunkSize` unless that chunk
contains exactly one sequence, and that sequence's own byte size exceeds
`maxChunkSize`. -/
theorem C3_oversized_chunk_is_alone (chunkSize : Nat) (primary trackFirstSamples : Bool)
    (sizeInBytes : Nat) (reqs : List (SequenceDescriptor × Nat × Nat)) (m : Index)
    (h : runAdds ((Index.create chunkSize primary trackFirstSamples).Reserve sizeInBytes)
      reqs = (m, none))
    (hq : ∀ r ∈ reqs, r.2.1 < r.2.2 ∧ r.2.2 < 2 ^ 64) :
    ∀ c ∈ m.m_chunks, m.m_maxChunkSize < c.m_byteSize →
      ∃ sd, c.m_sequences = [sd] ∧ m.m_maxChunkSize < sd.m_byteSize := by
  have hsi := SizeInv_run h hq
  intro c hc hbig
  rcases hsi.bound c hc with hle | ⟨⟨sd, hsd, hbs⟩, _⟩
  · omega
  · exact ⟨sd, hsd, by omega⟩

/-- Concrete instance of claim C3 (amended) on a build whose first record
alone exceeds the chunk-size cap. -/
theorem C3_oversized_chunk_is_alone_witness :
    ∃ sd, ((wrunB.m_chunks[0]?).getD emptyChunk).m_sequences = [sd] ∧
      wrunB.m_maxChunkSize < sd.m_byteSize :=
  C3_oversized_chunk_is_alone 10 true false 0 wreqsB wrunB (by decide) (by decide)
    ((wrunB.m_chunks[0]?).getD emptyChunk) (by decide) (by decide)

/-- Claim C4 (code bug): because every newly opened chunk sits at offset 0
(the `previousChunk` aliasing at `Indexer.h:100-107`), line 130 computes
`startOffsetInFile - 0` — the absolute file offset — for every chunk after
the first, so stored spans escape their chunk; the claimed invariant is the
spec's clear intent for the chunk-relative-offset field.  Even on the
contiguous three-record build the second chunk (byte size 9) stores a
sequence with `chunkOffsetBytes = 6` and `byteSize = 6`, and `6 + 6 > 9`. -/
theorem C4_span_code_bug :
    (runAdds wseedA wreqsA).2 = none ∧
    ∃ c sd, wrunA.m_chunks[1]? = some c ∧ c.m_sequences[0]? = some sd ∧
      sd.m_chunkOffsetBytes = 6 ∧ sd.m_byteSize = 6 ∧ c.m_byteSize = 9 ∧
      c.m_byteSize < sd.m_chunkOffsetBytes + sd.m_byteSize :=
  ⟨by decide, (wrunA.m_chunks[1]?).getD emptyChunk,
    (((wrunA.m_chunks[1]?).getD emptyChunk).m_sequences[0]?).getD (wsd 0 0),
    by decide, by decide, by decide, by decide, by decide, by decide⟩

/-- Claim C2 (code bug): on this sealing call the code does append exactly
one new chunk, gives it the next id (its position in the chunk list) and
places the record in it, but the new chunk's offset is 0, not the sealed
chunk's offset plus byte size: `Indexer.h:100` binds `previousChunk` as a
reference to the pointer `chunk`, repointed at line 105 before line 107
reads it.  Concretely: a 6-byte record arriving when the last chunk holds 9
of 10 allowed bytes seals it and opens a chunk with id 2 holding the
record, at offset `0` rather than `0 + 9 = 9`. -/
theorem C2_new_chunk_offset_code_bug :
    (0 < wbackA.m_byteSize ∧
      wrunA.m_maxChunkSize < wrap64 (wbackA.m_byteSize + usub 21 15)) ∧
    (wrunA.AddSequence (wsd 11 1) 15 21).2 = none ∧
    (wrunA.AddSequence (wsd 11 1) 15 21).1.m_chunks.length =
      wrunA.m_chunks.length + 1 ∧
    (∃ c, (wrunA.AddSequence (wsd 11 1) 15 21).1.m_chunks.getLast? = some c ∧
      c.m_id = wrunA.m_chunks.length ∧ c.m_sequences.length = 1 ∧
      c.m_offset = 0) ∧
    wbackA.m_offset + wbackA.m_byteSize = 9 ∧ (0 : Nat) ≠ 9 :=
  ⟨by decide, by decide, by decide,
    ⟨((wrunA.AddSequence (wsd 11 1) 15 21).1.m_chunks.getLast?).getD emptyChunk,
      by decide, by decide, by decide, by decide⟩, by decide, by decide⟩

set_option maxRecDepth 4000 in
/-- Claim C5 counterexample: on a secondary index whose current chunk
already holds `2 ^ 32` sequences (reachable through `2 ^ 32` zero-byte
calls, which never seal the chunk), `AddSequence` raises a fatal overflow
error ("Number of sequences overflow the chunk capacity") although both the
record byte size `1 - 0` and the chunk-relative offset `0 - 0` fit in 32
bits, so the claimed "if and only if" fails. -/
theorem C5_counterexample :
    (bigIndex.AddSequence (wsd 1 1) 0 1).2 = some IndexError.sequenceCountOverflow ∧
    trunc32 (usub 1 0) = usub 1 0 ∧
    bigIndex.m_chunks.getLast? = some bigChunk ∧
    trunc32 (usub 0 bigChunk.m_offset) = usub 0 bigChunk.m_offset := by
  refine ⟨?_, by decide, rfl, by decide⟩
  have hlen : bigChunk.m_sequences.length = 2 ^ 32 := by
    rw [show bigChunk.m_sequences = List.replicate (2 ^ 32) (wsd 0 1) from rfl,
      List.length_replicate]
  refine @AddSequence_posOverflow_intro bigIndex bigChunk (wsd 1 1) 0 1 rfl
    (by decide) ?_ rfl ?_
  · rw [show bigChunk.m_byteSize = 0 from rfl]
    simp
  · rw [hlen]
    decide

/-- Claim C5 (amended): with at least one chunk present (last chunk
`back`), `AddSequence` raises a fatal error if and only if (a) the record
byte size `endOffsetInFile - startOffsetInFile` cannot be represented in 32
bits, or (b) a new chunk would have to be opened and the resulting chunk
count would exceed `CHUNKID_MAX`, or (c) the index is secondary and the
target chunk's sequence count cannot be represented in 32 bits, or (d) the
record's offset relative to the target chunk — which, due to the
`previousChunk` aliasing, sits at offset 0 whenever it was freshly opened —
cannot be represented in 32 bits; when no error is raised, the exact
`size_t` differences are stored in the appended descriptor's `byteSize` and
`chunkOffsetBytes` fields.  The original claim listed only (a) and (d). -/
theorem C5_overflow_characterization (m : Index) (sd0 : SequenceDescriptor) (s e : Nat)
    (back : ChunkDescriptor) (hback : m.m_chunks.getLast? = some back) :
    ((m.AddSequence sd0 s e).2.isSome = true ↔
      (trunc32 (usub e s) ≠ usub e s ∨
        ((0 < back.m_byteSize ∧
            m.m_maxChunkSize < wrap64 (back.m_byteSize + usub e s)) ∧
          CHUNKID_MAX < m.m_chunks.length + 1) ∨
        (m.m_primary = false ∧
          trunc32 (targetOf m back s e).m_sequences.length ≠
            (targetOf m back s e).m_sequences.length) ∨
        trunc32 (usub s (targetOf m back s e).m_offset) ≠
          usub s (targetOf m back s e).m_offset)) ∧
    ((m.AddSequence sd0 s e).2 = none →
      ∃ c, (m.AddSequence sd0 s e).1.m_chunks.getLast? = some c ∧
        c.m_sequences.getLast? = some { sd0 with
          m_byteSize := usub e s,
          m_chunkOffsetBytes := usub s (targetOf m back s e).m_offset }) := by
  constructor
  · constructor
    · intro hsome
      obtain ⟨err, herr⟩ := Option.isSome_iff_exists.mp hsome
      have heq : m.AddSequence sd0 s e = ((m.AddSequence sd0 s e).1, some err) := by
        rw [← herr]
      rcases AddSequence_err_elim heq with ⟨_, htr, _⟩ | ⟨_, hnone, _⟩ |
        ⟨back2, hback2, htr, hrest⟩
      · exact Or.inl htr
      · rw [hback] at hnone
        cases hnone
      · have hbb : back2 = back := by
          rw [hback] at hback2
          exact (Option.some_inj.mp hback2).symm
        rw [hbb] at hrest
        rcases hrest with ⟨_, hseal, hcnt, _⟩ | ⟨front, target, hbr2, herrs⟩
        · exact Or.inr (Or.inl ⟨hseal, hcnt⟩)
        · have htg : target = targetOf m back s e := by
            rcases hbr2 with ⟨hns, _, htg0⟩ | ⟨hseal, _, htg0, _⟩
            · rw [htg0, targetOf, if_neg hns]
            · rw [htg0, targetOf, if_pos hseal]
          rcases herrs with ⟨_, hpF, hpos, _⟩ | ⟨_, hoff, _, _⟩
          · exact Or.inr (Or.inr (Or.inl ⟨hpF, htg ▸ hpos⟩))
          · exact Or.inr (Or.inr (Or.inr (htg ▸ hoff)))
    · intro hdisj
      by_contra hnot
      have hnone : (m.AddSequence sd0 s e).2 = none := by
        cases hov : (m.AddSequence sd0 s e).2 with
        | none => rfl
        | some err => exact absurd (by rw [hov]; rfl) hnot
      have heq : m.AddSequence sd0 s e = ((m.AddSequence sd0 s e).1, none) := by
        rw [← hnone]
      obtain ⟨back2, front, target, hback2, htr, hbr, hoff, hchunks, hkey, _, _, _⟩ :=
        AddSequence_none_elim heq
      have hbb : back2 = back := by
        rw [hback] at hback2
        exact (Option.some_inj.mp hback2).symm
      rw [hbb] at hbr
      have htg : target = targetOf m back s e := by
        rcases hbr with ⟨hns, _, htg0⟩ | ⟨hseal, _, htg0, _⟩
        · rw [htg0, targetOf, if_neg hns]
        · rw [htg0, targetOf, if_pos hseal]
      rcases hdisj with ha | ⟨hseal, hcnt⟩ | ⟨hpF, hpos⟩ | hd
      · exact ha htr
      · rcases hbr with ⟨hns, _, _⟩ | ⟨_, _, _, hcnt2⟩
        · exact hns hseal
        · omega
      · rcases hkey with ⟨hpT, _⟩ | ⟨_, hposok, _⟩
        · rw [hpT] at hpF
          exact Bool.noConfusion hpF
        · exact hpos (htg ▸ hposok)
      · exact hd (htg ▸ hoff)
  · intro hnone
    have heq : m.AddSequence sd0 s e = ((m.AddSequence sd0 s e).1, none) := by
      rw [← hnone]
    obtain ⟨back2, front, target, hback2, htr, hbr, hoff, hchunks, hkey, _, _, _⟩ :=
      AddSequence_none_elim heq
    have hbb : back2 = back := by
      rw [hback] at hback2
      exact (Option.some_inj.mp hback2).symm
    rw [hbb] at hbr
    have htg : target = targetOf m back s e := by
      rcases hbr with ⟨hns, _, htg0⟩ | ⟨hseal, _, htg0, _⟩
      · rw [htg0, targetOf, if_neg hns]
      · rw [htg0, targetOf, if_pos hseal]
    rw [hchunks]
    refine ⟨_, List.getLast?_concat _, ?_⟩
    rw [appendSeq_m_sequences, bumpChunk_m_sequences, List.getLast?_concat, htg]

/-- Concrete instance of claim C5 (amended) on a successful call: no error
condition holds and the exact differences are stored. -/
theorem C5_overflow_characterization_witness :
    ((wrunA.AddSequence (wsd 20 1) 15 16).2.isSome = true ↔
      (trunc32 (usub 16 15) ≠ usub 16 15 ∨
        ((0 < wbackA.m_byteSize ∧
            wrunA.m_maxChunkSize < wrap64 (wbackA.m_byteSize + usub 16 15)) ∧
          CHUNKID_MAX < wrunA.m_chunks.length + 1) ∨
        (wrunA.m_primary = false ∧
          trunc32 (targetOf wrunA wbackA 15 16).m_sequences.length ≠
            (targetOf wrunA wbackA 15 16).m_sequences.length) ∨
        trunc32 (usub 15 (targetOf wrunA wbackA 15 16).m_offset) ≠
          usub 15 (targetOf wrunA wbackA 15 16).m_offset)) ∧
    ((wrunA.AddSequence (wsd 20 1) 15 16).2 = none →
      ∃ c, (wrunA.AddSequence (wsd 20 1) 15 16).1.m_chunks.getLast? = some c ∧
        c.m_sequences.getLast? = some { wsd 20 1 with
          m_byteSize := usub 16 15,
          m_chunkOffsetBytes := usub 15 (targetOf wrunA wbackA 15 16).m_offset }) :=
  C5_overflow_characterization wrunA (wsd 20 1) 15 16 wbackA (by decide)

/-- Claim C6: for a secondary (non-primary) index, after any successful
sequence of `AddSequence` calls with pairwise-distinct sequence keys, every
inserted key is present in the key map and maps to a chunk-id/position pair
that dereferences to a stored descriptor with that key; for a primary index
the key map stays empty. -/
theorem C6_key_map_lookup (chunkSize : Nat) (trackFirstSamples : Bool)
    (sizeInBytes : Nat) :
    (∀ (reqs : List (SequenceDescriptor × Nat × Nat)) (m : Index),
      runAdds ((Index.create chunkSize false trackFirstSamples).Reserve sizeInBytes)
        reqs = (m, none) →
      (reqs.map fun r => r.1.m_key.m_sequence).Nodup →
      ∀ r ∈ reqs, ∃ cid pos c sd,
        lookupKey m.m_keyToSequenceInChunk r.1.m_key.m_sequence = some (cid, pos) ∧
        m.m_chunks[cid]? = some c ∧ c.m_sequences[pos]? = some sd ∧
        sd.m_key.m_sequence = r.1.m_key.m_sequence) ∧
    (∀ (reqs : List (SequenceDescriptor × Nat × Nat)) (m : Index),
      runAdds ((Index.create chunkSize true trackFirstSamples).Reserve sizeInBytes)
        reqs = (m, none) →
      m.m_keyToSequenceInChunk = []) := by
  constructor
  · intro reqs m h _ r hr
    have hg := GoodIndex_run h
    obtain ⟨w, hw⟩ := runAdds_keys_present rfl h r hr
    obtain ⟨cid, pos⟩ := w
    obtain ⟨c, sd, hc, hs, hk⟩ := hg.keymap _ cid pos hw
    exact ⟨cid, pos, c, sd, hw, hc, hs, hk⟩
  · intro reqs m h
    have hg := GoodIndex_run h
    have hp : m.m_primary = true := by
      rw [(runAdds_flags h).2.1]
      rfl
    exact hg.primaryEmpty hp

/-- Concrete instance of claim C6 on the three-record secondary build and a
primary build from the same requests. -/
theorem C6_key_map_lookup_witness :
    (∀ r ∈ wreqsA, ∃ cid pos c sd,
        lookupKey wrunA.m_keyToSequenceInChunk r.1.m_key.m_sequence = some (cid, pos) ∧
        wrunA.m_chunks[cid]? = some c ∧ c.m_sequences[pos]? = some sd ∧
        sd.m_key.m_sequence = r.1.m_key.m_sequence) ∧
    (runAdds ((Index.create 10 true true).Reserve 15) wreqsA).1.m_keyToSequenceInChunk
      = [] :=
  ⟨(C6_key_map_lookup 10 true 15).1 wreqsA wrunA (by decide) (by decide),
    (C6_key_map_lookup 10 true 15).2 wreqsA
      (runAdds ((Index.create 10 true true).Reserve 15) wreqsA).1 (by decide)⟩

/-- Claim C7: `AddSequence` raises a fatal error whenever opening a new
chunk would make the chunk count exceed `CHUNKID_MAX`, so in every
successfully built index the chunk count never exceeds `CHUNKID_MAX` and
every chunk id equals its untruncated position in the chunk list. -/
theorem C7_chunk_limit :
    (∀ (m : Index) (sd0 : SequenceDescriptor) (s e : Nat) (back : ChunkDescriptor),
      m.m_chunks.getLast? = some back →
      trunc32 (usub e s) = usub e s →
      (0 < back.m_byteSize ∧
        m.m_maxChunkSize < wrap64 (back.m_byteSize + usub e s)) →
      CHUNKID_MAX < m.m_chunks.length + 1 →
      (m.AddSequence sd0 s e).2 = some IndexError.maxChunkCountExceeded) ∧
    (∀ (chunkSize : Nat) (primary trackFirstSamples : Bool) (sizeInBytes : Nat)
        (reqs : List (SequenceDescriptor × Nat × Nat)) (m : Index),
      runAdds ((Index.create chunkSize primary trackFirstSamples).Reserve sizeInBytes)
        reqs = (m, none) →
      m.m_chunks.length ≤ CHUNKID_MAX ∧
      ∀ (i : Nat) (c : ChunkDescriptor), m.m_chunks[i]? = some c → c.m_id = i) := by
  constructor
  · intro m sd0 s e back hback htr hseal hcnt
    simp only [Index.AddSequence]
    rw [if_neg (not_ne_iff.mpr htr)]
    split
    · rename_i hnone
      rw [hback] at hnone
      cases hnone
    · rename_i b hb
      have hbb : b = back := by
        rw [hback] at hb
        exact (Option.some_inj.mp hb).symm
      rw [hbb, htr, if_pos hseal,
        if_pos (by rw [List.length_append, List.length_singleton]; exact hcnt)]
  · intro chunkSize primary trackFirstSamples sizeInBytes reqs m h
    have hg := GoodIndex_run h
    exact ⟨hg.count, hg.ids⟩

/-- Claim C8: when first-sample tracking is enabled, every successful
`AddSequence` call appends the owning chunk's pre-update sample total to
that chunk's first-sample table, so that in every successfully built index,
`firstSamples[i]` is the sum of the sample counts of the sequences at
positions `0..i-1` of the chunk. -/
theorem C8_first_samples_table :
    (∀ (m : Index) (sd0 : SequenceDescriptor) (s e : Nat) (m2 : Index)
        (back : ChunkDescriptor), m.m_trackFirstSamples = true →
      m.m_chunks.getLast? = some back →
      m.AddSequence sd0 s e = (m2, none) →
      ∃ c, m2.m_chunks.getLast? = some c ∧
        c.m_firstSamples = (targetOf m back s e).m_firstSamples ++
          [(targetOf m back s e).m_numberOfSamples]) ∧
    (∀ (chunkSize : Nat) (primary : Bool) (sizeInBytes : Nat)
        (reqs : List (SequenceDescriptor × Nat × Nat)) (m : Index),
      runAdds ((Index.create chunkSize primary true).Reserve sizeInBytes)
        reqs = (m, none) →
      ∀ c ∈ m.m_chunks, c.m_firstSamples.length = c.m_sequences.length ∧
        ∀ i, i < c.m_firstSamples.length →
          c.m_firstSamples[i]? = some (sumSamples (c.m_sequences.take i))) := by
  constructor
  · intro m sd0 s e m2 back ht hback h
    obtain ⟨back2, front, target, hback2, htr, hbr, hoff, hchunks, hkey, hmax, hprim,
      htrack⟩ := AddSequence_none_elim h
    have hbb : back2 = back := by
      rw [hback] at hback2
      exact (Option.some_inj.mp hback2).symm
    rw [hbb] at hbr
    have htg : target = targetOf m back s e := by
      rcases hbr with ⟨hns, _, htg0⟩ | ⟨hseal, _, htg0, _⟩
      · rw [htg0, targetOf, if_neg hns]
      · rw [htg0, targetOf, if_pos hseal]
    rw [ht] at hchunks
    rw [hchunks]
    refine ⟨_, List.getLast?_concat _, ?_⟩
    rw [appendSeq_m_firstSamples, bumpChunk_m_firstSamples_of_track, htg]
  · intro chunkSize primary sizeInBytes reqs m h
    have hg := GoodIndex_run h
    have ht2 : m.m_trackFirstSamples = true := by
      rw [(runAdds_flags h).2.2]
      rfl
    exact fun c hc => hg.firsts ht2 c hc

/-- Concrete instance of claim C7: on an index already holding
`CHUNKID_MAX` chunks whose last chunk is full, the next record triggers the
chunk-limit error; and the three-record build stays within the limit with
ids equal to positions. -/
theorem C7_chunk_limit_witness :
    (fullIndex.AddSequence (wsd 1 1) 0 1).2 = some IndexError.maxChunkCountExceeded ∧
    (wrunA.m_chunks.length ≤ CHUNKID_MAX ∧
      ∀ (i : Nat) (c : ChunkDescriptor), wrunA.m_chunks[i]? = some c → c.m_id = i) :=
  ⟨C7_chunk_limit.1 fullIndex (wsd 1 1) 0 1 fullChunk (List.getLast?_concat _)
      (by decide) (by decide)
      (by
        rw [show fullIndex.m_chunks =
            List.replicate (2 ^ 32 - 2) fullChunk ++ [fullChunk] from rfl,
          List.length_append, List.length_replicate, List.length_singleton]
        decide),
    C7_chunk_limit.2 10 false true 15 wreqsA wrunA (by decide)⟩

/-- Concrete instance of claim C8 on a tracked call and the three-record
tracked build. -/
theorem C8_first_samples_table_witness :
    (∃ c, (wrunA.AddSequence (wsd 30 2) 15 16).1.m_chunks.getLast? = some c ∧
      c.m_firstSamples = (targetOf wrunA wbackA 15 16).m_firstSamples ++
        [(targetOf wrunA wbackA 15 16).m_numberOfSamples]) ∧
    (∀ c ∈ wrunA.m_chunks, c.m_firstSamples.length = c.m_sequences.length ∧
      ∀ i, i < c.m_firstSamples.length →
        c.m_firstSamples[i]? = some (sumSamples (c.m_sequences.take i))) :=
  ⟨C8_first_samples_table.1 wrunA (wsd 30 2) 15 16 _ wbackA (by decide) (by decide)
      (by decide),
    C8_first_samples_table.2 10 false 15 wreqsA wrunA (by decide)⟩

/-- Claim C9: `AddSequence` is not atomic on failure.  On a precondition-
respecting call (the chunk list is nonempty) that raises an error: the
record-byte-size overflow error leaves the index unchanged, and it is the
only error that does; the chunk-relative-offset overflow error leaves the
owning chunk's byte size and sequence/sample counters already updated (and,
when tracking is on, the first-samples entry appended, and, for a secondary
index, the key present in the map) while the descriptor itself is not
appended to the chunk's sequence collection. -/
theorem C9_partial_mutation_on_failure (m : Index) (sd0 : SequenceDescriptor)
    (s e : Nat) (m2 : Index) (err : IndexError) (hne : m.m_chunks ≠ [])
    (h : m.AddSequence sd0 s e = (m2, some err)) :
    (err = IndexError.sequenceByteSizeOverflow → m2 = m) ∧
    (err ≠ IndexError.sequenceByteSizeOverflow → m2 ≠ m) ∧
    (err = IndexError.chunkOffsetOverflow →
      ∃ back, m.m_chunks.getLast? = some back ∧
        ∃ c, m2.m_chunks.getLast? = some c ∧
          c.m_sequences = (targetOf m back s e).m_sequences ∧
          c.m_byteSize = wrap64 ((targetOf m back s e).m_byteSize + usub e s) ∧
          c.m_numberOfSequences = (targetOf m back s e).m_numberOfSequences + 1 ∧
          c.m_numberOfSamples =
            (targetOf m back s e).m_numberOfSamples + sd0.m_numberOfSamples ∧
          (m.m_trackFirstSamples = true → c.m_firstSamples =
            (targetOf m back s e).m_firstSamples ++
              [(targetOf m back s e).m_numberOfSamples]) ∧
          (m.m_primary = false →
            lookupKey m2.m_keyToSequenceInChunk sd0.m_key.m_sequence ≠ none)) := by
  rcases AddSequence_err_elim h with ⟨herr, htr, hm⟩ | ⟨herr, hnone, _⟩ |
    ⟨back, hback, htr, hrest⟩
  · subst herr
    exact ⟨fun _ => hm, fun hc => absurd rfl hc, fun hc => absurd hc (by decide)⟩
  · rw [List.getLast?_eq_none_iff] at hnone
    exact absurd hnone hne
  · rcases hrest with ⟨herr, hseal, hcnt, hm⟩ | ⟨front, target, hbr, herrs⟩
    · subst herr
      refine ⟨fun hc => absurd hc (by decide), fun _ heqm => ?_,
        fun hc => absurd hc (by decide)⟩
      rw [heqm] at hm
      have hch : m.m_chunks =
          m.m_chunks ++ [freshChunk (m.m_chunks.length + 1)] :=
        congrArg Index.m_chunks hm
      exact (chunks_ne_extension hback).2 _ hch
    · rcases herrs with ⟨herr, hpF, hpos, hm⟩ | ⟨herr, hoffne, hchunks, hkey⟩
      · subst herr
        refine ⟨fun hc => absurd hc (by decide), fun _ heqm => ?_,
          fun hc => absurd hc (by decide)⟩
        rw [heqm] at hm
        have hch : m.m_chunks = front ++
            [bumpChunk m.m_trackFirstSamples target
              { sd0 with m_byteSize := usub e s }] :=
          congrArg Index.m_chunks hm
        rcases hbr with ⟨hns, hfr, htg0⟩ | ⟨hseal, hfr, htg0, _⟩
        · rw [hfr, htg0] at hch
          exact (chunks_ne_extension hback).1 _ _ hch
        · rw [hfr] at hch
          exact (chunks_ne_extension hback).2 _ hch
      · subst herr
        refine ⟨fun hc => absurd hc (by decide), fun _ heqm => ?_, fun _ => ?_⟩
        · rw [heqm] at hchunks
          rcases hbr with ⟨hns, hfr, htg0⟩ | ⟨hseal, hfr, htg0, _⟩
          · rw [hfr, htg0] at hchunks
            exact (chunks_ne_extension hback).1 _ _ hchunks
          · rw [hfr] at hchunks
            exact (chunks_ne_extension hback).2 _ hchunks
        · refine ⟨back, hback, ?_⟩
          have htg : target = targetOf m back s e := by
            rcases hbr with ⟨hns, _, htg0⟩ | ⟨hseal, _, htg0, _⟩
            · rw [htg0, targetOf, if_neg hns]
            · rw [htg0, targetOf, if_pos hseal]
          rw [hchunks]
          refine ⟨_, List.getLast?_concat _, ?_, ?_, ?_, ?_, ?_, ?_⟩
          · rw [bumpChunk_m_sequences, htg]
          · rw [bumpChunk_m_byteSize, htg, sd_update_m_byteSize]
          · rw [bumpChunk_m_numberOfSequences, htg]
          · rw [bumpChunk_m_numberOfSamples, htg, sd_update_m_numberOfSamples]
          · intro ht
            rw [ht, bumpChunk_m_firstSamples_of_track, htg]
          · intro hpF2
            rcases hkey with ⟨hpT, _⟩ | ⟨_, _, hmap⟩
            · rw [hpT] at hpF2
              exact Bool.noConfusion hpF2
            · rw [hmap, lookupKey_insertKey_self]
              simp

/-- Concrete instance of claim C9: a call whose chunk-relative offset
overflows (start offset `2 ^ 33` against a chunk at offset 0) raises the
offset error after the counters, the first-samples table and the key map
have been updated. -/
theorem C9_partial_mutation_on_failure_witness :
    (IndexError.chunkOffsetOverflow = IndexError.sequenceByteSizeOverflow →
      (wseedC.AddSequence (wsd 1 1) (2 ^ 33) (2 ^ 33 + 4)).1 = wseedC) ∧
    (IndexError.chunkOffsetOverflow ≠ IndexError.sequenceByteSizeOverflow →
      (wseedC.AddSequence (wsd 1 1) (2 ^ 33) (2 ^ 33 + 4)).1 ≠ wseedC) ∧
    (IndexError.chunkOffsetOverflow = IndexError.chunkOffsetOverflow →
      ∃ back, wseedC.m_chunks.getLast? = some back ∧
        ∃ c, (wseedC.AddSequence (wsd 1 1) (2 ^ 33) (2 ^ 33 + 4)).1.m_chunks.getLast?
            = some c ∧
          c.m_sequences = (targetOf wseedC back (2 ^ 33) (2 ^ 33 + 4)).m_sequences ∧
          c.m_byteSize = wrap64 ((targetOf wseedC back (2 ^ 33) (2 ^ 33 + 4)).m_byteSize +
            usub (2 ^ 33 + 4) (2 ^ 33)) ∧
          c.m_numberOfSequences =
            (targetOf wseedC back (2 ^ 33) (2 ^ 33 + 4)).m_numberOfSequences + 1 ∧
          c.m_numberOfSamples =
            (targetOf wseedC back (2 ^ 33) (2 ^ 33 + 4)).m_numberOfSamples +
              (wsd 1 1).m_numberOfSamples ∧
          (wseedC.m_trackFirstSamples = true → c.m_firstSamples =
            (targetOf wseedC back (2 ^ 33) (2 ^ 33 + 4)).m_firstSamples ++
              [(targetOf wseedC back (2 ^ 33) (2 ^ 33 + 4)).m_numberOfSamples]) ∧
          (wseedC.m_primary = false →
            lookupKey
              ((wseedC.AddSequence (wsd 1 1) (2 ^ 33) (2 ^ 33 + 4)).1).m_keyToSequenceInChunk
              (wsd 1 1).m_key.m_sequence ≠ none)) :=
  C9_partial_mutation_on_failure wseedC (wsd 1 1) (2 ^ 33) (2 ^ 33 + 4) _
    IndexError.chunkOffsetOverflow (by decide) (by decide)

/-- Claim C10: a duplicate sequence key never causes an error — the error
outcome of `AddSequence` does not depend on the key map at all — and on a
successful call with a key already present, the earlier key-to-location
mapping is left in place (`std::map::insert` does not overwrite) while the
new descriptor is still appended to the chunk and counted in all chunk
totals. -/
theorem C10_duplicate_key :
    (∀ (m : Index) (km : List (Nat × Nat × Nat)) (sd0 : SequenceDescriptor)
        (s e : Nat),
      (({ m with m_keyToSequenceInChunk := km }).AddSequence sd0 s e).2 =
        (m.AddSequence sd0 s e).2) ∧
    (∀ (m : Index) (sd0 : SequenceDescriptor) (s e : Nat) (m2 : Index)
        (v : Nat × Nat),
      m.m_primary = false →
      lookupKey m.m_keyToSequenceInChunk sd0.m_key.m_sequence = some v →
      m.AddSequence sd0 s e = (m2, none) →
      lookupKey m2.m_keyToSequenceInChunk sd0.m_key.m_sequence = some v ∧
      ∃ back c, m.m_chunks.getLast? = some back ∧ m2.m_chunks.getLast? = some c ∧
        c.m_sequences.length = (targetOf m back s e).m_sequences.length + 1 ∧
        c.m_numberOfSequences = (targetOf m back s e).m_numberOfSequences + 1 ∧
        c.m_numberOfSamples =
          (targetOf m back s e).m_numberOfSamples + sd0.m_numberOfSamples ∧
        c.m_byteSize = wrap64 ((targetOf m back s e).m_byteSize + usub e s)) := by
  constructor
  · intro m km sd0 s e
    obtain ⟨ch, km0, mx, pr, tr⟩ := m
    simp only [Index.AddSequence, afterBoundary, finishAdd]
    by_cases h1 : trunc32 (usub e s) ≠ usub e s
    · simp only [if_pos h1]
    · simp only [if_neg h1]
      cases hgl : ch.getLast? with
      | none => rfl
      | some back =>
        by_cases h2 : 0 < back.m_byteSize ∧
            mx < wrap64 (back.m_byteSize + trunc32 (usub e s))
        · simp only [if_pos h2]
          by_cases h3 : CHUNKID_MAX < (ch ++ [freshChunk (ch.length + 1)]).length
          · simp only [if_pos h3]
          · simp only [if_neg h3]
            by_cases h4 : pr = true
            · simp only [if_pos h4]
              split <;> rfl
            · simp only [if_neg h4]
              split <;> (try rfl) <;> (split <;> rfl)
        · simp only [if_neg h2]
          by_cases h4 : pr = true
          · simp only [if_pos h4]
            split <;> rfl
          · simp only [if_neg h4]
            split <;> (try rfl) <;> (split <;> rfl)
  · intro m sd0 s e m2 v hp hlk h
    obtain ⟨back2, front, target, hback2, htr, hbr, hoff, hchunks, hkey, hmax, hprim,
      htrack⟩ := AddSequence_none_elim h
    have htg : target = targetOf m back2 s e := by
      rcases hbr with ⟨hns, _, htg0⟩ | ⟨hseal, _, htg0, _⟩
      · rw [htg0, targetOf, if_neg hns]
      · rw [htg0, targetOf, if_pos hseal]
    have hlast : m2.m_chunks.getLast? = some
        (appendSeq (bumpChunk m.m_trackFirstSamples target
          { sd0 with m_byteSize := usub e s })
          { sd0 with m_byteSize := usub e s } (usub s target.m_offset)) := by
      rw [hchunks]
      exact List.getLast?_concat _
    refine ⟨AddSequence_lookup_mono h hlk, back2, _, hback2, hlast, ?_, ?_, ?_, ?_⟩
    · rw [appendSeq_m_sequences, bumpChunk_m_sequences, List.length_append,
        List.length_singleton, htg]
    · rw [appendSeq_m_numberOfSequences, bumpChunk_m_numberOfSequences, htg]
    · rw [appendSeq_m_numberOfSamples, bumpChunk_m_numberOfSamples, htg,
        sd_update_m_numberOfSamples]
    · rw [appendSeq_m_byteSize, bumpChunk_m_byteSize, htg, sd_update_m_byteSize]

/-- Concrete instance of claim C10: re-adding key 5 (already mapped to
chunk 0, position 0) succeeds, leaves the old mapping, and appends and
counts the new descriptor. -/
theorem C10_duplicate_key_witness :
    ((({ wrunA with m_keyToSequenceInChunk := [] }).AddSequence (wsd 5 3) 15 16).2 =
      (wrunA.AddSequence (wsd 5 3) 15 16).2) ∧
    (lookupKey ((wrunA.AddSequence (wsd 5 3) 15 16).1).m_keyToSequenceInChunk
        (wsd 5 3).m_key.m_sequence = some (0, 0) ∧
      ∃ back c, wrunA.m_chunks.getLast? = some back ∧
        (wrunA.AddSequence (wsd 5 3) 15 16).1.m_chunks.getLast? = some c ∧
        c.m_sequences.length = (targetOf wrunA back 15 16).m_sequences.length + 1 ∧
        c.m_numberOfSequences = (targetOf wrunA back 15 16).m_numberOfSequences + 1 ∧
        c.m_numberOfSamples =
          (targetOf wrunA back 15 16).m_numberOfSamples + (wsd 5 3).m_numberOfSamples ∧
        c.m_byteSize = wrap64 ((targetOf wrunA back 15 16).m_byteSize + usub 16 15)) :=
  ⟨C10_duplicate_key.1 wrunA [] (wsd 5 3) 15 16,
    C10_duplicate_key.2 wrunA (wsd 5 3) 15 16 _ (0, 0) (by decide) (by decide)
      (by decide)⟩

end Indexer
